import Mathlib

set_option maxRecDepth 10000

/-!
Shallow embedding of the core of the VECS entity component system
(ViennaEntityComponentSystem): the fixed-type registry `VecsRegistry<E>`
with its shared entity table, free list and generation counters
(src/include/VECS.h), the component table `VecsComponentTable<E>`
(src/include/VECS.h), the archetype `Move` operation and the `Hash`
function of the archetype-registry design (src/unnamed/part_001), and the
bounds-checked row operations of `VecsTable` (src/include/VECSTable.h).

std::vector is modelled as a length together with a total contents
function (`FVec`); machine integers are modelled as `Nat` with explicit
`% 2 ^ w` at the points where the source wraps.
-/

namespace Vecs

/-- Model of a std::vector: a length together with the contents function.
Positions at or beyond `len` model the memory after the end of the vector. -/
structure FVec (α : Type) where
  len : Nat
  dat : Nat → α

/-- emplace_back / push_back. -/
def FVec.push {α : Type} (v : FVec α) (a : α) : FVec α :=
  ⟨v.len + 1, fun k => if k = v.len then a else v.dat k⟩

/-- Assignment `v[i] = a`. -/
def FVec.setv {α : Type} (v : FVec α) (i : Nat) (a : α) : FVec α :=
  ⟨v.len, fun k => if k = i then a else v.dat k⟩

/-- pop_back. -/
def FVec.popBack {α : Type} (v : FVec α) : FVec α := ⟨v.len - 1, v.dat⟩

/-- An empty vector; `d` fills the memory after the end. -/
def FVec.emp {α : Type} (d : α) : FVec α := ⟨0, fun _ => d⟩

/-- Modelled from the spec: the strong integral types of IntType.h (not
among the sources) store a NULL value; the NULL of the 32-bit `index_t`
is the maximum of the underlying type, `2 ^ 32 - 1`. -/
def idxNull : Nat := 4294967295

/-- Modelled from the spec: NULL of the 16-bit `counter16_t`
(the generation counter), `2 ^ 16 - 1`. -/
def cntNull : Nat := 65535

/-- The index of the entity type `E` in `VecsEntityTypeList`; it is a fixed
compile-time constant for the registry `VecsRegistry<E>` being modelled. -/
def typeE : Nat := 0

/-- `VecsHandle` (VECS.h lines 56-88): slot index into the entity table,
generation counter, and entity type index.  Handles compare field-wise. -/
structure VecsHandle where
  entityIndex : Nat
  generationCounter : Nat
  typeIndex : Nat
deriving DecidableEq

/-- The default-constructed handle `VecsHandle{}`: every strong int NULL. -/
def nullHandle : VecsHandle := ⟨idxNull, cntNull, cntNull⟩

/-- `entry_t` of `VecsRegistryBaseClass` (VECS.h lines 355-362): the next
free slot (when the slot is on the free list) or the index into the
component table (when the slot is live), and the generation counter. -/
structure EntryT where
  nextFreeOrCompIndex : Nat
  generationCounter : Nat
deriving DecidableEq

/-- A default-constructed `entry_t`: NULL next index, generation counter 0. -/
def newEntry : EntryT := ⟨idxNull, 0⟩

/-- The mutable state touched by `VecsRegistry<E>` for a single entity type
`E`: the shared entity table and free-list head of
`VecsRegistryBaseClass`, and the handle column `m_handles` and component
columns `m_components` of `VecsComponentTable<E>`.  All component columns
of `E` are updated uniformly by the same `vtll::static_for` loops, so the
tuple of columns is modelled as a single fused column of values. -/
structure RegState where
  entityTable : FVec EntryT
  firstFree : Nat
  handles : FVec VecsHandle
  components : FVec Nat

/-- The registry before any operation: empty tables, empty free list. -/
def initState : RegState :=
  ⟨FVec.emp newEntry, idxNull, FVec.emp nullHandle, FVec.emp 0⟩

/-- `VecsRegistry<E>::contains` (VECS.h lines 532-537): false when the
handle's entity index is NULL or out of range, otherwise compare the
handle's generation counter with the slot's. -/
def contains (s : RegState) (h : VecsHandle) : Bool :=
  if h.entityIndex = idxNull ∨ s.entityTable.len ≤ h.entityIndex then false
  else decide ((s.entityTable.dat h.entityIndex).generationCounter = h.generationCounter)

/-- `VecsRegistry<E>::insert` (VECS.h lines 513-530): pop a slot off the
free list if one exists, else append a fresh entry (generation 0); mint
the handle from the slot's current generation; append the handle and the
components to the component table (`VecsComponentTable<E>::insert`,
VECS.h lines 213-223, returning row `m_handles.size() - 1`), and store
that row index in the slot. -/
def insert (s : RegState) (v : Nat) : RegState × VecsHandle :=
  if s.firstFree ≠ idxNull then
    let idx := s.firstFree
    let ff := (s.entityTable.dat idx).nextFreeOrCompIndex
    let handle : VecsHandle := ⟨idx, (s.entityTable.dat idx).generationCounter, typeE⟩
    let hs := s.handles.push handle
    let cs := s.components.push v
    let compidx := hs.len - 1
    let et := s.entityTable.setv idx ⟨compidx, (s.entityTable.dat idx).generationCounter⟩
    (⟨et, ff, hs, cs⟩, handle)
  else
    let idx := s.entityTable.len
    let et0 := s.entityTable.push newEntry
    let handle : VecsHandle := ⟨idx, (et0.dat idx).generationCounter, typeE⟩
    let hs := s.handles.push handle
    let cs := s.components.push v
    let compidx := hs.len - 1
    let et := et0.setv idx ⟨compidx, (et0.dat idx).generationCounter⟩
    (⟨et, s.firstFree, hs, cs⟩, handle)

/-- `VecsComponentTable<E>::erase` (VECS.h lines 272-282).  If the erased
row is not the last, `std::swap` the two rows of `m_handles`, pop, and
return the handle now living at the erased row together with that row's
index; else just pop and return the NULL handle and NULL index.  The
source touches only `m_handles`; the component columns are left as they
are.  (The source compares `index < m_handles.size() - 1` in `size_t`
arithmetic; at its call sites `index < m_handles.size()`, where this
agrees with `index + 1 < m_handles.size()`.) -/
def compErase (hs : FVec VecsHandle) (index : Nat) : FVec VecsHandle × (VecsHandle × Nat) :=
  if index + 1 < hs.len then
    let last := hs.dat (hs.len - 1)
    let cur := hs.dat index
    let hs1 := ((hs.setv index last).setv (hs.len - 1) cur).popBack
    (hs1, (hs1.dat index, index))
  else
    (hs.popBack, (nullHandle, idxNull))

/-- The slot-map fixup of `VecsRegistry<E>::erase` (VECS.h line 578):
`if (!corr_index.is_null()) m_entity_table[corr_hndl...].m_next_free_or_comp_index = corr_index`. -/
def eraseCorr (et : FVec EntryT) (corrHndl : VecsHandle) (corrIndex : Nat) : FVec EntryT :=
  if corrIndex ≠ idxNull then
    et.setv corrHndl.entityIndex ⟨corrIndex, (et.dat corrHndl.entityIndex).generationCounter⟩
  else et

/-- The generation bump of `VecsRegistry<E>::erase` (VECS.h lines 580-581):
16-bit increment; when the counter reaches the NULL value, wrap to zero. -/
def wrapInc (g : Nat) : Nat :=
  if (g + 1) % 65536 = cntNull then 0 else (g + 1) % 65536

/-- `VecsRegistry<E>::erase` (VECS.h lines 572-585): fail on a stale
handle; otherwise erase the slot's row from the component table,
redirect the slot of the backfilled handle (if any) to the erased row,
bump the slot's generation counter, store the old free-list head in the
slot and make the slot the new free-list head. -/
def eraseReg (s : RegState) (h : VecsHandle) : RegState × Bool :=
  if contains s h then
    let hidx := h.entityIndex
    let cidx := (s.entityTable.dat hidx).nextFreeOrCompIndex
    let er := compErase s.handles cidx
    let et1 := eraseCorr s.entityTable er.2.1 er.2.2
    let et2 := et1.setv hidx ⟨s.firstFree, wrapInc ((et1.dat hidx).generationCounter)⟩
    (⟨et2, hidx, er.1, s.components⟩, true)
  else (s, false)

/-- `VecsRegistry<E>::component<C>` (VECS.h lines 546-553): empty on a
stale handle, else read the component column at the slot's row index. -/
def componentGet (s : RegState) (h : VecsHandle) : Option Nat :=
  if contains s h then
    some (s.components.dat ((s.entityTable.dat h.entityIndex).nextFreeOrCompIndex))
  else none

/-- One API call of a client trace: an insert with a component value, or an
erase of the handle returned by the `k`-th insert of the trace so far. -/
inductive Op where
  | ins (v : Nat)
  | del (k : Nat)

/-- A run of the registry: the state, the list of handles returned by the
insert calls (each paired with the number of successful erases at its
slot at the moment it was minted), and the handles of the successful
erase calls in order. -/
structure RunAcc where
  state : RegState
  minted : List (VecsHandle × Nat)
  erased : List VecsHandle

/-- Number of successful erases recorded at slot `i`. -/
def countSlot (l : List VecsHandle) (i : Nat) : Nat :=
  (l.filter (fun h => h.entityIndex = i)).length

/-- Execute one trace operation. -/
def stepOp (a : RunAcc) (op : Op) : RunAcc :=
  match op with
  | .ins v =>
    let p := insert a.state v
    { state := p.1,
      minted := a.minted ++ [(p.2, countSlot a.erased p.2.entityIndex)],
      erased := a.erased }
  | .del k =>
    let h := (a.minted.getD k (nullHandle, 0)).1
    let p := eraseReg a.state h
    { state := p.1, minted := a.minted,
      erased := if p.2 then a.erased ++ [h] else a.erased }

/-- Run a trace from the initial registry state. -/
def run (ops : List Op) : RunAcc := ops.foldl stepOp ⟨initState, [], []⟩

/-- Generation counters are never the reserved NULL value: in the entity
table (at every position, including the memory after the end, which the
model fills with default entries) and on every minted handle. -/
def GenOk (a : RunAcc) : Prop :=
  (∀ i, (a.state.entityTable.dat i).generationCounter ≠ cntNull) ∧
  (∀ p ∈ a.minted, p.1.generationCounter ≠ cntNull)

/-- The free list of the entity table as an abstract stack: `ff` is the
head of the chain threaded through the `nextFreeOrCompIndex` fields, and
the chain ends with the NULL index. -/
def FreeChain (et : FVec EntryT) : Nat → List Nat → Prop
  | ff, [] => ff = idxNull
  | ff, i :: rest => ff = i ∧ FreeChain et (et.dat i).nextFreeOrCompIndex rest

/-- Invariant of a registry run whose per-slot erase counts have not
reached the generation period 65535: `fs` is the free-list stack; every
other slot below the table length is live and owns exactly one row of
the handle column; the generation of a slot equals the number of
successful erases at it; each minted handle records the erase count of
its slot at mint time, and a minted handle has been erased exactly when
its slot's count has moved past its own. -/
structure Inv (a : RunAcc) (fs : List Nat) : Prop where
  et_min : a.state.entityTable.len ≤ a.minted.length
  h_min : a.state.handles.len ≤ a.minted.length
  gen_cnt : ∀ i, i < a.state.entityTable.len →
    (a.state.entityTable.dat i).generationCounter = countSlot a.erased i
  chain : FreeChain a.state.entityTable a.state.firstFree fs
  fs_lt : ∀ i ∈ fs, i < a.state.entityTable.len
  fs_nd : fs.Nodup
  row_ok : ∀ r, r < a.state.handles.len →
    (a.state.handles.dat r).entityIndex < a.state.entityTable.len ∧
    (a.state.handles.dat r).entityIndex ∉ fs ∧
    (a.state.handles.dat r).generationCounter
      = (a.state.entityTable.dat (a.state.handles.dat r).entityIndex).generationCounter ∧
    (a.state.handles.dat r).typeIndex = typeE
  row_inj : ∀ r1 r2, r1 < a.state.handles.len → r2 < a.state.handles.len → r1 ≠ r2 →
    (a.state.handles.dat r1).entityIndex ≠ (a.state.handles.dat r2).entityIndex
  occ_row : ∀ i, i < a.state.entityTable.len → i ∉ fs →
    (a.state.entityTable.dat i).nextFreeOrCompIndex < a.state.handles.len ∧
    (a.state.handles.dat (a.state.entityTable.dat i).nextFreeOrCompIndex).entityIndex = i
  mint_ok : ∀ p ∈ a.minted,
    p.1.entityIndex < a.state.entityTable.len ∧ p.1.typeIndex = typeE ∧
    p.1.generationCounter = p.2 ∧
    (p.2 < countSlot a.erased p.1.entityIndex ∨
      (p.2 = countSlot a.erased p.1.entityIndex ∧ p.1.entityIndex ∉ fs))
  mint_mono : a.minted.Pairwise (fun p q => p.1.entityIndex = q.1.entityIndex → p.2 < q.2)
  er_iff : ∀ h : VecsHandle,
    h ∈ a.erased ↔ ∃ c, (h, c) ∈ a.minted ∧ c < countSlot a.erased h.entityIndex

/-- The first handle minted by a trace starting with an insert. -/
def h0 : VecsHandle := ⟨0, 0, typeE⟩

/-- The handle minted by the `j`-th insert/erase pair of the wrap trace,
with its mint-time erase count. -/
def mintPair (j : Nat) : VecsHandle × Nat := (⟨0, j + 1, typeE⟩, j + 1)

/-- The handle successfully erased by the `j`-th pair of the wrap trace. -/
def delHandle (j : Nat) : VecsHandle := ⟨0, j + 1, typeE⟩

/-- `k` insert/erase pairs on the single slot 0: pair `j` inserts and then
erases the handle returned by that insert (mint index `j + 1`). -/
def pairOps (k : Nat) : List Op := (List.range k).flatMap (fun j => [Op.ins 0, Op.del (j + 1)])

/-- A trace that drives slot 0's generation counter through a full period:
one insert/erase, then 65534 further insert/erase pairs on the slot. -/
def wrapOps : List Op := [Op.ins 0, Op.del 0] ++ pairOps 65534

/-- The wrap trace followed by one more insert, which reuses slot 0 at
generation 0 again. -/
def wrapOps2 : List Op := wrapOps ++ [Op.ins 0]

/-! The archetype-registry design (src/unnamed/part_001). -/

/-- The type index `Type<Handle>()` under which an archetype's handle
column is stored; a fixed value at run time. -/
def handleTi : Nat := 0

/-- The component maps `m_maps` of an archetype: an association list from
type index to the column of values stored under it (the iteration order
of the `std::unordered_map` is the list order). -/
abbrev CompMaps := List (Nat × List Nat)

/-- Lookup `m_maps.find(ti)`. -/
def lookupCol (m : CompMaps) (ti : Nat) : Option (List Nat) :=
  match m with
  | [] => none
  | p :: rest => if p.1 = ti then some p.2 else lookupCol rest ti

/-- `m_maps.contains(ti)`. -/
def containsKey (m : CompMaps) (ti : Nat) : Bool := (lookupCol m ti).isSome

/-- Append `v` to the column stored under `ti`. -/
def appendAt (m : CompMaps) (ti : Nat) (v : Nat) : CompMaps :=
  match m with
  | [] => []
  | p :: rest => (if p.1 = ti then (p.1, p.2 ++ [v]) else p) :: appendAt rest ti v

/-- One iteration of the copy loop of `Archetype::Move`
(src/unnamed/part_001 lines 157-165):
`if (m_maps.contains(ti)) m_maps[ti]->copy(other.Map(ti), other_index)`.
Modelled from the spec: `Vector::copy` of the missing VECSVector.h
appends the value at the other column's row `other_index` to this column
(spec 4.1: `move_from(other, j)` appends the value at `other[j]` to self). -/
def copyStep (m : CompMaps) (other : CompMaps) (oi ti : Nat) : CompMaps :=
  if containsKey m ti then appendAt m ti (((lookupCol other ti).getD []).getD oi 0) else m

/-- Modelled from the spec: `Vector::erase(index)` of the missing
VECSVector.h swap-erases (spec 4.1: if `i` is not the last row, move the
last row into slot `i` and pop, returning the old last index; if `i` is
the last row, just pop).  It returns the old last index `size - 1`, so
that `Erase2`'s test `index < last` detects whether a backfill happened. -/
def vecSwapErase (l : List Nat) (i : Nat) : List Nat × Nat :=
  if i + 1 < l.length then ((l.set i (l.getD (l.length - 1) 0)).dropLast, l.length - 1)
  else (l.dropLast, l.length - 1)

/-- `Archetype<ATYPE>` (src/unnamed/part_001): the set of component type
indices, the component maps, and the change counter. -/
structure Archetype where
  mTypes : List Nat
  mMaps : CompMaps
  mChangeCounter : Nat

/-- `Archetype::Erase2` (src/unnamed/part_001 lines 273-283): swap-erase
row `index` out of every component map, remembering the last map's
returned old last index; if a backfill happened, repoint the slot map of
the handle that now lives at row `index`; bump the change counter.  The
slot maps are modelled as one map from handle value to stored archetype
row index. -/
def erase2 (a : Archetype) (index : Nat) (sm : Nat → Nat) : Archetype × (Nat → Nat) :=
  let folded := a.mMaps.foldl
    (fun (acc : CompMaps × Nat) p =>
      let r := vecSwapErase p.2 index
      (acc.1 ++ [(p.1, r.1)], r.2)) ([], index)
  let sm1 :=
    if index < folded.2 then
      let lastHandle := ((lookupCol folded.1 handleTi).getD []).getD index 0
      fun h => if h = lastHandle then index else sm h
    else sm
  (⟨a.mTypes, folded.1, a.mChangeCounter + 1⟩, sm1)

/-- `Archetype::Move` (src/unnamed/part_001 lines 157-165): for every type
index in `types` that this archetype stores, append a copy of the other
archetype's value at row `otherIndex`; erase the row from the other
archetype via `Erase2`; bump both change counters; return
`m_maps[Type<Handle>()]->size() - 1`, the row index of the migrated
entity in this archetype. -/
def Move (self : Archetype) (types : List Nat) (otherIndex : Nat) (other : Archetype)
    (sm : Nat → Nat) : Archetype × Archetype × (Nat → Nat) × Nat :=
  let maps1 := types.foldl (fun m ti => copyStep m other.mMaps otherIndex ti) self.mMaps
  let p := erase2 other otherIndex sm
  let other2 : Archetype := ⟨p.1.mTypes, p.1.mMaps, p.1.mChangeCounter + 1⟩
  let self2 : Archetype := ⟨self.mTypes, maps1, self.mChangeCounter + 1⟩
  (self2, other2, p.2, ((lookupCol maps1 handleTi).getD []).length - 1)

/-- `Archetype::Size` (src/unnamed/part_001 lines 189-191): the length of
the handle column. -/
def ArchSize (a : Archetype) : Nat := ((lookupCol a.mMaps handleTi).getD []).length

/-- One fold step of `Hash` (src/unnamed/part_001 lines 32-42):
`seed ^= v + 0x9e3779b9 + (seed << 6) + (seed >> 2)` in `size_t`
(64-bit wrapping) arithmetic. -/
def hashStep (seed v : Nat) : Nat :=
  Nat.xor seed ((v + 2654435769 + seed * 64 + seed / 4) % 18446744073709551616)

/-- `Hash` (src/unnamed/part_001 lines 32-42): fold `hashStep` over the
container of type-id hashes, starting from seed 0.  The
`if constexpr (is_std_vector<T>)` branch sorts the container first, so
the two template instantiations are modelled by the Boolean `isVec`:
`true` for `std::vector` arguments (sorted before folding), `false` for
every other container type (folded in iteration order). -/
def vecsHash (isVec : Bool) (hashes : List Nat) : Nat :=
  match isVec with
  | true => (List.insertionSort (fun a b => a ≤ b) hashes).foldl hashStep 0
  | false => hashes.foldl hashStep 0

/-! The table container `VecsTable` (src/include/VECSTable.h). -/

/-- `VecsTable<P, DATA, N0, ROW>`: the row count `m_size` and the segment
storage, modelled as a total map from row index to the DATA tuple of the
row (the segmented buffer addresses a row uniquely via
`(i >> L, i & (N-1))`; the tuple components of one row are written
uniformly by the `vtll::static_for` loops, so they are modelled fused). -/
structure VecsTableM (V : Type) where
  msize : Nat
  store : Nat → V

/-- `VecsTable::update` (VECSTable.h lines 262-273): false when
`n >= m_size`, else assign the row's component and return true. -/
def tableUpdate {V : Type} (t : VecsTableM V) (n : Nat) (d : V) : Bool × VecsTableM V :=
  if t.msize ≤ n then (false, t)
  else (true, ⟨t.msize, fun k => if k = n then d else t.store k⟩)

/-- `VecsTable::move` (VECSTable.h lines 299-311): false when
`idst >= m_size || isrc >= m_size`, else move-assign row `isrc` onto row
`idst` and return true. -/
def tableMove {V : Type} (t : VecsTableM V) (idst isrc : Nat) : Bool × VecsTableM V :=
  if t.msize ≤ idst ∨ t.msize ≤ isrc then (false, t)
  else (true, ⟨t.msize, fun k => if k = idst then t.store isrc else t.store k⟩)

/-- `VecsTable::swap` (VECSTable.h lines 319-331): false when either index
is `>= m_size`, else `std::swap` the two rows and return true. -/
def tableSwap {V : Type} (t : VecsTableM V) (n1 n2 : Nat) : Bool × VecsTableM V :=
  if t.msize ≤ n1 ∨ t.msize ≤ n2 then (false, t)
  else (true, ⟨t.msize,
    fun k => if k = n1 then t.store n2 else if k = n2 then t.store n1 else t.store k⟩)

/-! Characterizations of the registry operations. -/

theorem contains_iff (s : RegState) (h : VecsHandle) :
    contains s h = true ↔
      h.entityIndex ≠ idxNull ∧ h.entityIndex < s.entityTable.len ∧
      (s.entityTable.dat h.entityIndex).generationCounter = h.generationCounter := by
  unfold contains
  split
  · rename_i hcond
    simp only [Bool.false_eq_true, false_iff]
    intro hK
    rcases hcond with hc | hc
    · exact hK.1 hc
    · omega
  · rename_i hcond
    push_neg at hcond
    simp only [decide_eq_true_eq]
    constructor
    · intro hg
      exact ⟨hcond.1, by omega, hg⟩
    · intro hK
      exact hK.2.2

theorem erase_fail (s : RegState) (h : VecsHandle) (hc : contains s h = false) :
    eraseReg s h = (s, false) := by
  unfold eraseReg
  rw [if_neg]
  simp [hc]

theorem erase_of_not_contains (s : RegState) (h : VecsHandle)
    (hc : ¬ contains s h = true) : eraseReg s h = (s, false) := by
  apply erase_fail
  simpa using hc

theorem erase_succ_contains (s : RegState) (h : VecsHandle)
    (hsucc : (eraseReg s h).2 = true) : contains s h = true := by
  by_contra hc
  rw [erase_of_not_contains s h hc] at hsucc
  simp at hsucc

theorem eraseCorr_len (et : FVec EntryT) (ch : VecsHandle) (ci : Nat) :
    (eraseCorr et ch ci).len = et.len := by
  unfold eraseCorr
  split <;> simp [FVec.setv]

theorem eraseCorr_gen (et : FVec EntryT) (ch : VecsHandle) (ci i : Nat) :
    ((eraseCorr et ch ci).dat i).generationCounter = (et.dat i).generationCounter := by
  unfold eraseCorr
  split
  · by_cases hji : i = ch.entityIndex
    · subst hji
      simp [FVec.setv]
    · simp [FVec.setv, hji]
  · rfl

theorem wrapInc_ne (g : Nat) : wrapInc g ≠ g := by
  unfold wrapInc cntNull
  split <;> omega

theorem wrapInc_ne_null (g : Nat) : wrapInc g ≠ cntNull := by
  unfold wrapInc cntNull
  split <;> omega

/-- Shape of a successful erase: length of the entity table and the new
generation counter at the erased slot. -/
theorem erase_succ_fields (s : RegState) (h : VecsHandle)
    (hc : contains s h = true) :
    (eraseReg s h).1.entityTable.len = s.entityTable.len ∧
    ((eraseReg s h).1.entityTable.dat h.entityIndex).generationCounter
      = wrapInc ((s.entityTable.dat h.entityIndex).generationCounter) := by
  unfold eraseReg
  rw [if_pos hc]
  constructor
  · simp [FVec.setv, eraseCorr_len]
  · simp [FVec.setv, eraseCorr_gen]

/-- Claim C5: after a successful `erase(h)`, a second `erase(h)` is a stale
handle failure: it returns false (the slot's generation counter no longer
matches the handle's) and leaves the entire registry state unchanged. -/
theorem c5_erase_idempotent (s : RegState) (h : VecsHandle)
    (hsucc : (eraseReg s h).2 = true) :
    eraseReg (eraseReg s h).1 h = ((eraseReg s h).1, false) := by
  have hc : contains s h = true := erase_succ_contains s h hsucc
  obtain ⟨hnn, hlt, hgen⟩ := (contains_iff s h).mp hc
  obtain ⟨hlen, hgen2⟩ := erase_succ_fields s h hc
  apply erase_of_not_contains
  rw [contains_iff]
  intro hK
  rw [hgen2, hgen] at hK
  exact wrapInc_ne h.generationCounter hK.2.2

/-- Claim C9: `contains` is total in the handle: any handle whose entity
index is NULL or not below the entity table length yields false, before
any entity table entry is consulted. -/
theorem c9_contains_total (s : RegState) (h : VecsHandle)
    (hc : h.entityIndex = idxNull ∨ s.entityTable.len ≤ h.entityIndex) :
    contains s h = false := by
  unfold contains
  rw [if_pos hc]

/-- Claim C2: the component-table erase moves the last row's handle into
the erased slot, so the third entity's handle still resolves, but the
component columns are never swapped nor popped (VECS.h lines 272-282):
after inserting components 10, 20, 30 and erasing the middle entity, the
surviving third entity (handle slot 2, now stored at row 1) reads the
erased entity's component value 20 instead of its own value 30. -/
theorem c2_swap_erase_component_bug :
    contains (run [Op.ins 10, Op.ins 20, Op.ins 30, Op.del 1]).state ⟨2, 0, typeE⟩ = true ∧
    componentGet (run [Op.ins 10, Op.ins 20, Op.ins 30]).state ⟨2, 0, typeE⟩ = some 30 ∧
    componentGet (run [Op.ins 10, Op.ins 20, Op.ins 30, Op.del 1]).state ⟨2, 0, typeE⟩ = some 20 := by
  refine ⟨by decide, by decide, by decide⟩

/-- Witness for C5 at a concrete input. -/
theorem c5_erase_idempotent_witness :
    eraseReg (eraseReg (run [Op.ins 3]).state ⟨0, 0, typeE⟩).1 ⟨0, 0, typeE⟩
      = ((eraseReg (run [Op.ins 3]).state ⟨0, 0, typeE⟩).1, false) :=
  c5_erase_idempotent (run [Op.ins 3]).state ⟨0, 0, typeE⟩ (by decide)

/-- Witness for C9 at a concrete input. -/
theorem c9_contains_total_witness :
    contains (run [Op.ins 1]).state ⟨9, 0, typeE⟩ = false :=
  c9_contains_total (run [Op.ins 1]).state ⟨9, 0, typeE⟩ (Or.inr (by decide))

/-! Generation counters never hold the reserved NULL value (claim C3). -/

theorem insert_gen_all (s : RegState) (v : Nat) (i : Nat)
    (h1 : ∀ j, (s.entityTable.dat j).generationCounter ≠ cntNull) :
    ((insert s v).1.entityTable.dat i).generationCounter ≠ cntNull := by
  unfold insert
  split
  · by_cases hi : i = s.firstFree
    · subst hi
      simpa [FVec.setv] using h1 s.firstFree
    · simpa [FVec.setv, hi] using h1 i
  · by_cases hi : i = s.entityTable.len
    · subst hi
      simp [FVec.setv, FVec.push, newEntry, cntNull]
    · simp only [FVec.setv, FVec.push]
      rw [if_neg hi, if_neg hi]
      exact h1 i

theorem insert_handle_gen (s : RegState) (v : Nat)
    (h1 : ∀ j, (s.entityTable.dat j).generationCounter ≠ cntNull) :
    (insert s v).2.generationCounter ≠ cntNull := by
  unfold insert
  split
  · exact h1 s.firstFree
  · simp [FVec.push, newEntry, cntNull]

theorem erase_gen_all (s : RegState) (h : VecsHandle) (i : Nat)
    (h1 : ∀ j, (s.entityTable.dat j).generationCounter ≠ cntNull) :
    ((eraseReg s h).1.entityTable.dat i).generationCounter ≠ cntNull := by
  unfold eraseReg
  split
  · by_cases hi : i = h.entityIndex
    · subst hi
      simp only [FVec.setv, if_pos rfl]
      exact wrapInc_ne_null _
    · simp only [FVec.setv, if_neg hi]
      rw [eraseCorr_gen]
      exact h1 i
  · exact h1 i

theorem genOk_step (a : RunAcc) (op : Op) (hg : GenOk a) : GenOk (stepOp a op) := by
  obtain ⟨h1, h2⟩ := hg
  cases op with
  | ins v =>
    refine ⟨fun i => insert_gen_all a.state v i h1, ?_⟩
    intro p hp
    rcases List.mem_append.mp hp with hp | hp
    · exact h2 p hp
    · rcases List.mem_singleton.mp hp with rfl
      exact insert_handle_gen a.state v h1
  | del k =>
    exact ⟨fun i => erase_gen_all a.state _ i h1, h2⟩

theorem genOk_foldl (l : List Op) : ∀ a, GenOk a → GenOk (l.foldl stepOp a) := by
  induction l with
  | nil => exact fun a ha => ha
  | cons op rest ih => exact fun a ha => ih _ (genOk_step a op ha)

theorem genOk_run (ops : List Op) : GenOk (run ops) := by
  apply genOk_foldl
  constructor
  · intro i
    simp [initState, FVec.emp, newEntry, cntNull]
  · intro p hp
    simp at hp

/-- Claim C3: the generation-counter wrap on erase skips the reserved
NULL value: in every reachable registry state, no entity-table slot
stores the NULL generation, and every handle minted by an insert (in
particular from a reused slot) carries a non-NULL generation. -/
theorem c3_generation_never_null (ops : List Op) :
    (∀ i, i < (run ops).state.entityTable.len →
      ((run ops).state.entityTable.dat i).generationCounter ≠ cntNull) ∧
    (∀ p ∈ (run ops).minted, p.1.generationCounter ≠ cntNull) := by
  obtain ⟨h1, h2⟩ := genOk_run ops
  exact ⟨fun i _ => h1 i, h2⟩

/-- Witness for C3 at a concrete input. -/
theorem c3_generation_never_null_witness :
    ((run [Op.ins 5, Op.del 0]).state.entityTable.dat 0).generationCounter ≠ cntNull :=
  (c3_generation_never_null [Op.ins 5, Op.del 0]).1 0 (by decide)

/-! Archetype migration (claim C6). -/

theorem lookup_appendAt_eq (m : CompMaps) (ti v : Nat) :
    lookupCol (appendAt m ti v) ti = (lookupCol m ti).map (fun l => l ++ [v]) := by
  induction m with
  | nil => rfl
  | cons p rest ih =>
    by_cases hp : p.1 = ti
    · simp [appendAt, lookupCol, hp]
    · simp [appendAt, lookupCol, hp, ih]

theorem lookup_appendAt_ne (m : CompMaps) (ti tj v : Nat) (hne : tj ≠ ti) :
    lookupCol (appendAt m ti v) tj = lookupCol m tj := by
  induction m with
  | nil => rfl
  | cons p rest ih =>
    have hne2 : ¬ (ti = tj) := fun hK => hne hK.symm
    by_cases hp : p.1 = ti
    · have hpj : ¬ p.1 = tj := by
        rw [hp]
        exact hne2
      simp [appendAt, lookupCol, hp, hpj, ih, hne2]
    · by_cases hq : p.1 = tj
      · simp [appendAt, lookupCol, hp, hq, hne]
      · simp [appendAt, lookupCol, hp, hq, ih]

theorem lookup_copyStep_ne (m o : CompMaps) (oi ti tj : Nat) (hne : tj ≠ ti) :
    lookupCol (copyStep m o oi ti) tj = lookupCol m tj := by
  unfold copyStep
  split
  · exact lookup_appendAt_ne m ti tj _ hne
  · rfl

theorem lookup_fold_not_mem (o : CompMaps) (oi : Nat) (ts : List Nat) (tj : Nat)
    (hnm : tj ∉ ts) :
    ∀ m : CompMaps,
      lookupCol (ts.foldl (fun mm ti => copyStep mm o oi ti) m) tj = lookupCol m tj := by
  induction ts with
  | nil => intro m; rfl
  | cons t ts ih =>
    intro m
    have h1 : tj ∉ ts := fun hK => hnm (List.mem_cons_of_mem t hK)
    have h2 : tj ≠ t := fun hK => hnm (hK ▸ List.mem_cons_self t ts)
    rw [List.foldl_cons, ih h1, lookup_copyStep_ne m o oi t tj h2]

theorem lookup_fold_mem (o : CompMaps) (oi : Nat) (ts : List Nat)
    (hmem : handleTi ∈ ts) (hnd : ts.Nodup) :
    ∀ m l, lookupCol m handleTi = some l →
      ∃ w, lookupCol (ts.foldl (fun mm ti => copyStep mm o oi ti) m) handleTi
            = some (l ++ [w]) := by
  induction ts with
  | nil => cases hmem
  | cons t ts ih =>
    intro m l hl
    rw [List.foldl_cons]
    rcases List.mem_cons.mp hmem with heq | hmem2
    · subst heq
      have hnm : handleTi ∉ ts := (List.nodup_cons.mp hnd).1
      have hstep : lookupCol (copyStep m o oi handleTi) handleTi
          = some (l ++ [((lookupCol o handleTi).getD []).getD oi 0]) := by
        unfold copyStep containsKey
        rw [if_pos (by rw [hl]; rfl), lookup_appendAt_eq, hl]
        rfl
      rw [lookup_fold_not_mem o oi ts handleTi hnm, hstep]
      exact ⟨_, rfl⟩
    · have hne : t ≠ handleTi := by
        intro hK
        exact (List.nodup_cons.mp hnd).1 (hK ▸ hmem2)
      have hstep : lookupCol (copyStep m o oi t) handleTi = some l := by
        rw [lookup_copyStep_ne m o oi t handleTi (fun hK => hne hK.symm)]
        exact hl
      exact ih hmem2 (List.nodup_cons.mp hnd).2 _ l hstep

/-- Claim C6: `Archetype::Move` from the source archetype `other` into the
target archetype `self` strictly increases both change counters (the
target's once, the source's twice: once in `Erase2` and once in `Move`),
and returns the migrated entity's new row index in the target, which is
the target's entity count minus one after the move. -/
theorem c6_move_counters_and_index (self other : Archetype) (types : List Nat)
    (oi : Nat) (sm : Nat → Nat) (hmem : handleTi ∈ types) (hnd : types.Nodup)
    (hcol : ∃ l, lookupCol self.mMaps handleTi = some l) :
    self.mChangeCounter < (Move self types oi other sm).1.mChangeCounter ∧
    other.mChangeCounter < (Move self types oi other sm).2.1.mChangeCounter ∧
    (Move self types oi other sm).2.2.2 + 1 = ArchSize (Move self types oi other sm).1 := by
  obtain ⟨l, hl⟩ := hcol
  obtain ⟨w, hw⟩ := lookup_fold_mem other.mMaps oi types hmem hnd self.mMaps l hl
  unfold Move ArchSize erase2
  simp only
  refine ⟨by omega, by omega, ?_⟩
  rw [hw]
  simp

/-- Witness for C6 at a concrete input. -/
theorem c6_move_counters_and_index_witness :
    (⟨[handleTi, 5], [(handleTi, [7]), (5, [1])], 3⟩ : Archetype).mChangeCounter <
      (Move ⟨[handleTi, 5], [(handleTi, [7]), (5, [1])], 3⟩ [5, handleTi] 0
        ⟨[handleTi, 5], [(handleTi, [8, 9]), (5, [2, 4])], 10⟩ (fun x => x)).1.mChangeCounter ∧
    (⟨[handleTi, 5], [(handleTi, [8, 9]), (5, [2, 4])], 10⟩ : Archetype).mChangeCounter <
      (Move ⟨[handleTi, 5], [(handleTi, [7]), (5, [1])], 3⟩ [5, handleTi] 0
        ⟨[handleTi, 5], [(handleTi, [8, 9]), (5, [2, 4])], 10⟩ (fun x => x)).2.1.mChangeCounter ∧
    (Move ⟨[handleTi, 5], [(handleTi, [7]), (5, [1])], 3⟩ [5, handleTi] 0
        ⟨[handleTi, 5], [(handleTi, [8, 9]), (5, [2, 4])], 10⟩ (fun x => x)).2.2.2 + 1
      = ArchSize (Move ⟨[handleTi, 5], [(handleTi, [7]), (5, [1])], 3⟩ [5, handleTi] 0
        ⟨[handleTi, 5], [(handleTi, [8, 9]), (5, [2, 4])], 10⟩ (fun x => x)).1 :=
  c6_move_counters_and_index ⟨[handleTi, 5], [(handleTi, [7]), (5, [1])], 3⟩
    ⟨[handleTi, 5], [(handleTi, [8, 9]), (5, [2, 4])], 10⟩ [5, handleTi] 0 (fun x => x)
    (by decide) (by decide) ⟨[7], by decide⟩

/-! Order independence of the archetype key hash (claim C7). -/

/-- Claim C7, amended: for `std::vector` containers (which `Hash` sorts in
place before folding), any two multiset-equal inputs hash to the same
value, so two type sets that are equal as sets produce the same
archetype key. -/
theorem c7_vector_hash_perm_invariant (l1 l2 : List Nat) (hp : l1.Perm l2) :
    vecsHash true l1 = vecsHash true l2 := by
  unfold vecsHash
  have hs : List.insertionSort (fun a b => a ≤ b) l1
      = List.insertionSort (fun a b => a ≤ b) l2 := by
    apply List.eq_of_perm_of_sorted
      (((List.perm_insertionSort _ l1).trans hp).trans (List.perm_insertionSort _ l2).symm)
      (List.sorted_insertionSort _ l1) (List.sorted_insertionSort _ l2)
  rw [hs]

/-- Counterexample for C7 as stated: for a container type other than
`std::vector` the `if constexpr` branch of `Hash` does not sort, and the
fold is not commutative: the multiset-equal inputs `[1, 2]` and `[2, 1]`
hash to different values. -/
theorem c7_counterexample :
    List.Perm [(1 : Nat), 2] [2, 1] ∧ vecsHash false [1, 2] ≠ vecsHash false [2, 1] :=
  ⟨by decide, by decide⟩

/-- Witness for C7 (amended) at a concrete input. -/
theorem c7_vector_hash_perm_invariant_witness :
    vecsHash true [3, 1, 2] = vecsHash true [2, 3, 1] :=
  c7_vector_hash_perm_invariant [3, 1, 2] [2, 3, 1] (by decide)

/-! Bounds checking of the table row operations (claims C8 and C10). -/

/-- Claim C8: `VecsTable::update` and `VecsTable::move` return false and
leave the table (its size and every row) unchanged whenever a supplied
index is not below `m_size`; with all indices in range they perform the
write (respectively the row move) and return true. -/
theorem c8_update_move_bounds {V : Type} (t : VecsTableM V) (n idst isrc : Nat) (d : V) :
    (t.msize ≤ n → tableUpdate t n d = (false, t)) ∧
    (n < t.msize →
      (tableUpdate t n d).1 = true ∧ (tableUpdate t n d).2.msize = t.msize ∧
      (tableUpdate t n d).2.store n = d ∧
      ∀ k, k ≠ n → (tableUpdate t n d).2.store k = t.store k) ∧
    (t.msize ≤ idst ∨ t.msize ≤ isrc → tableMove t idst isrc = (false, t)) ∧
    (idst < t.msize → isrc < t.msize →
      (tableMove t idst isrc).1 = true ∧ (tableMove t idst isrc).2.msize = t.msize ∧
      (tableMove t idst isrc).2.store idst = t.store isrc) := by
  refine ⟨?_, ?_, ?_, ?_⟩
  · intro hn
    unfold tableUpdate
    rw [if_pos hn]
  · intro hn
    unfold tableUpdate
    rw [if_neg (by omega)]
    refine ⟨rfl, rfl, by simp, ?_⟩
    intro k hk
    simp [hk]
  · intro hor
    unfold tableMove
    rw [if_pos hor]
  · intro hd hs
    unfold tableMove
    rw [if_neg (by omega)]
    exact ⟨rfl, rfl, by simp⟩

/-- Witness for C8 at a concrete input. -/
theorem c8_update_move_bounds_witness :
    tableUpdate (⟨2, fun k => k + 10⟩ : VecsTableM Nat) 5 99
      = (false, (⟨2, fun k => k + 10⟩ : VecsTableM Nat)) ∧
    (tableMove (⟨2, fun k => k + 10⟩ : VecsTableM Nat) 0 1).1 = true :=
  ⟨(c8_update_move_bounds (⟨2, fun k => k + 10⟩ : VecsTableM Nat) 5 0 1 99).1 (by decide),
   ((c8_update_move_bounds (⟨2, fun k => k + 10⟩ : VecsTableM Nat) 5 0 1 99).2.2.2
      (by decide) (by decide)).1⟩

/-- Claim C10: for distinct in-range row indices, `VecsTable::swap`
returns true and exchanges the two rows, leaving the size and every
other row unchanged. -/
theorem c10_swap_rows {V : Type} (t : VecsTableM V) (n1 n2 : Nat)
    (hne : n1 ≠ n2) (h1 : n1 < t.msize) (h2 : n2 < t.msize) :
    (tableSwap t n1 n2).1 = true ∧ (tableSwap t n1 n2).2.msize = t.msize ∧
    (tableSwap t n1 n2).2.store n1 = t.store n2 ∧
    (tableSwap t n1 n2).2.store n2 = t.store n1 ∧
    ∀ k, k ≠ n1 → k ≠ n2 → (tableSwap t n1 n2).2.store k = t.store k := by
  unfold tableSwap
  rw [if_neg (by omega)]
  refine ⟨rfl, rfl, by simp, ?_, ?_⟩
  · simp [Ne.symm hne]
  · intro k hk1 hk2
    simp [hk1, hk2]

/-- Witness for C10 at a concrete input. -/
theorem c10_swap_rows_witness :
    (tableSwap (⟨3, fun k => k * 7⟩ : VecsTableM Nat) 0 1).1 = true ∧
    (tableSwap (⟨3, fun k => k * 7⟩ : VecsTableM Nat) 0 1).2.store 0 = 7 := by
  have hmain := c10_swap_rows (⟨3, fun k => k * 7⟩ : VecsTableM Nat) 0 1
    (by decide) (by decide) (by decide)
  exact ⟨hmain.1, by rw [hmain.2.2.1]⟩

/-! Helper lemmas for the registry invariant (claims C1 and C4). -/

theorem handle_ext (x y : VecsHandle) (h1 : x.entityIndex = y.entityIndex)
    (h2 : x.generationCounter = y.generationCounter) (h3 : x.typeIndex = y.typeIndex) :
    x = y := by
  cases x
  cases y
  simp_all

theorem countSlot_append (l : List VecsHandle) (h : VecsHandle) (i : Nat) :
    countSlot (l ++ [h]) i
      = countSlot l i + if h.entityIndex = i then 1 else 0 := by
  unfold countSlot
  rw [List.filter_append]
  by_cases hh : h.entityIndex = i
  · simp [hh]
  · simp [hh]

theorem countSlot_zero_of (l : List VecsHandle) (i : Nat)
    (hall : ∀ h ∈ l, h.entityIndex ≠ i) : countSlot l i = 0 := by
  unfold countSlot
  rw [List.length_eq_zero]
  rw [List.filter_eq_nil_iff]
  intro h hm
  simp [hall h hm]

theorem freeChain_congr (et et2 : FVec EntryT) (ff : Nat) (fs : List Nat)
    (hc : FreeChain et ff fs)
    (hsame : ∀ j ∈ fs, (et2.dat j).nextFreeOrCompIndex = (et.dat j).nextFreeOrCompIndex) :
    FreeChain et2 ff fs := by
  induction fs generalizing ff with
  | nil => exact hc
  | cons i rest ih =>
    obtain ⟨hffi, hrest⟩ := hc
    refine ⟨hffi, ?_⟩
    rw [hsame i (List.mem_cons_self i rest)]
    exact ih _ hrest (fun j hj => hsame j (List.mem_cons_of_mem _ hj))

theorem stepOp_ins (a : RunAcc) (v : Nat) :
    stepOp a (Op.ins v) =
      ⟨(insert a.state v).1,
       a.minted ++ [((insert a.state v).2, countSlot a.erased (insert a.state v).2.entityIndex)],
       a.erased⟩ := rfl

theorem stepOp_del (a : RunAcc) (k : Nat) :
    stepOp a (Op.del k) =
      ⟨(eraseReg a.state (a.minted.getD k (nullHandle, 0)).1).1, a.minted,
       if (eraseReg a.state (a.minted.getD k (nullHandle, 0)).1).2 then
         a.erased ++ [(a.minted.getD k (nullHandle, 0)).1]
       else a.erased⟩ := rfl

theorem insert_free (s : RegState) (v : Nat) (hff : s.firstFree ≠ idxNull) :
    insert s v =
      (⟨s.entityTable.setv s.firstFree
          ⟨s.handles.len, (s.entityTable.dat s.firstFree).generationCounter⟩,
        (s.entityTable.dat s.firstFree).nextFreeOrCompIndex,
        s.handles.push ⟨s.firstFree, (s.entityTable.dat s.firstFree).generationCounter, typeE⟩,
        s.components.push v⟩,
       ⟨s.firstFree, (s.entityTable.dat s.firstFree).generationCounter, typeE⟩) := by
  unfold insert
  rw [if_pos hff]
  simp [FVec.push]

theorem insert_fresh (s : RegState) (v : Nat) (hff : s.firstFree = idxNull) :
    insert s v =
      (⟨(s.entityTable.push newEntry).setv s.entityTable.len ⟨s.handles.len, 0⟩,
        s.firstFree,
        s.handles.push ⟨s.entityTable.len, 0, typeE⟩,
        s.components.push v⟩,
       ⟨s.entityTable.len, 0, typeE⟩) := by
  unfold insert
  rw [if_neg (by simp [hff])]
  simp [FVec.push, newEntry]

theorem erase_snd (s : RegState) (h : VecsHandle) :
    (eraseReg s h).2 = contains s h := by
  unfold eraseReg
  split
  · rename_i hcc
    simp [hcc]
  · rename_i hcc
    simp only [Bool.not_eq_true] at hcc
    simp [hcc]

theorem erase_succ_eq (s : RegState) (h : VecsHandle) (hc : contains s h = true) :
    eraseReg s h =
      (⟨(eraseCorr s.entityTable
            (compErase s.handles ((s.entityTable.dat h.entityIndex).nextFreeOrCompIndex)).2.1
            (compErase s.handles ((s.entityTable.dat h.entityIndex).nextFreeOrCompIndex)).2.2).setv
          h.entityIndex
          ⟨s.firstFree,
           wrapInc (((eraseCorr s.entityTable
              (compErase s.handles ((s.entityTable.dat h.entityIndex).nextFreeOrCompIndex)).2.1
              (compErase s.handles ((s.entityTable.dat h.entityIndex).nextFreeOrCompIndex)).2.2).dat
                h.entityIndex).generationCounter)⟩,
        h.entityIndex,
        (compErase s.handles ((s.entityTable.dat h.entityIndex).nextFreeOrCompIndex)).1,
        s.components⟩, true) := by
  unfold eraseReg
  rw [if_pos hc]

theorem compErase_swap_len (hs : FVec VecsHandle) (index : Nat) (hlt : index + 1 < hs.len) :
    (compErase hs index).1.len = hs.len - 1 := by
  unfold compErase
  rw [if_pos hlt]
  simp [FVec.setv, FVec.popBack]

theorem compErase_swap_dat (hs : FVec VecsHandle) (index : Nat) (hlt : index + 1 < hs.len)
    (k : Nat) :
    (compErase hs index).1.dat k =
      if k = hs.len - 1 then hs.dat index
      else if k = index then hs.dat (hs.len - 1) else hs.dat k := by
  unfold compErase
  rw [if_pos hlt]
  rfl

theorem compErase_swap_corr (hs : FVec VecsHandle) (index : Nat) (hlt : index + 1 < hs.len) :
    (compErase hs index).2 = (hs.dat (hs.len - 1), index) := by
  unfold compErase
  rw [if_pos hlt]
  simp only [FVec.setv, FVec.popBack]
  rw [if_neg (show ¬ index = hs.len - 1 by omega)]
  simp

theorem compErase_last_len (hs : FVec VecsHandle) (index : Nat)
    (hge : ¬ index + 1 < hs.len) : (compErase hs index).1.len = hs.len - 1 := by
  unfold compErase
  rw [if_neg hge]
  rfl

theorem compErase_last_dat (hs : FVec VecsHandle) (index : Nat)
    (hge : ¬ index + 1 < hs.len) (k : Nat) : (compErase hs index).1.dat k = hs.dat k := by
  unfold compErase
  rw [if_neg hge]
  rfl

theorem compErase_last_corr (hs : FVec VecsHandle) (index : Nat)
    (hge : ¬ index + 1 < hs.len) : (compErase hs index).2 = (nullHandle, idxNull) := by
  unfold compErase
  rw [if_neg hge]

theorem eraseCorr_null (et : FVec EntryT) (ch : VecsHandle) :
    eraseCorr et ch idxNull = et := by
  unfold eraseCorr
  simp

theorem eraseCorr_dat_ne (et : FVec EntryT) (ch : VecsHandle) (ci i : Nat)
    (hne : i ≠ ch.entityIndex) : (eraseCorr et ch ci).dat i = et.dat i := by
  unfold eraseCorr
  split
  · simp [FVec.setv, hne]
  · rfl

theorem eraseCorr_dat_self (et : FVec EntryT) (ch : VecsHandle) (ci : Nat)
    (hci : ci ≠ idxNull) :
    (eraseCorr et ch ci).dat ch.entityIndex
      = ⟨ci, (et.dat ch.entityIndex).generationCounter⟩ := by
  unfold eraseCorr
  rw [if_pos hci]
  simp [FVec.setv]

theorem wrapInc_small (n : Nat) (hn : n + 1 < 65535) : wrapInc n = n + 1 := by
  unfold wrapInc cntNull
  split <;> omega

theorem setv_len {α : Type} (v : FVec α) (i : Nat) (a : α) : (v.setv i a).len = v.len := rfl

theorem setv_dat_self {α : Type} (v : FVec α) (i : Nat) (a : α) : (v.setv i a).dat i = a := by
  simp [FVec.setv]

theorem setv_dat_ne {α : Type} (v : FVec α) (i : Nat) (a : α) (k : Nat) (hk : k ≠ i) :
    (v.setv i a).dat k = v.dat k := by
  simp [FVec.setv, hk]

theorem push_len {α : Type} (v : FVec α) (a : α) : (v.push a).len = v.len + 1 := rfl

theorem push_dat_ne {α : Type} (v : FVec α) (a : α) (k : Nat) (hk : k ≠ v.len) :
    (v.push a).dat k = v.dat k := by
  simp [FVec.push, hk]

theorem push_dat_self {α : Type} (v : FVec α) (a : α) : (v.push a).dat v.len = a := by
  simp [FVec.push]

theorem countSlot_append2 (l1 l2 : List VecsHandle) (i : Nat) :
    countSlot (l1 ++ l2) i = countSlot l1 i + countSlot l2 i := by
  unfold countSlot
  rw [List.filter_append, List.length_append]

/-- Inserting preserves the invariant (no bound needed: an insert performs
no erase). -/
theorem step_ins_inv (a : RunAcc) (fs : List Nat) (v : Nat) (hinv : Inv a fs)
    (hlen : a.minted.length < idxNull) :
    ∃ fs2, Inv (stepOp a (Op.ins v)) fs2 := by
  obtain ⟨et_min, h_min, gen_cnt, chain, fs_lt, fs_nd, row_ok, row_inj, occ_row,
    mint_ok, mint_mono, er_iff⟩ := hinv
  have hercnt : ∀ h2 ∈ a.erased, h2.entityIndex < a.state.entityTable.len := by
    intro h2 hm
    obtain ⟨c2, hcm, _⟩ := (er_iff h2).mp hm
    exact (mint_ok _ hcm).1
  rw [stepOp_ins]
  by_cases hff : a.state.firstFree = idxNull
  · -- fresh slot: the free list is empty
    have hfs : fs = [] := by
      cases fs with
      | nil => rfl
      | cons i rest =>
        exfalso
        obtain ⟨hffi, _⟩ := chain
        have hilt := fs_lt i (List.mem_cons_self i rest)
        have : i < idxNull := lt_of_lt_of_le hilt (le_trans et_min (le_of_lt hlen))
        omega
    subst hfs
    rw [insert_fresh a.state v hff]
    dsimp only
    have hcnt0 : countSlot a.erased a.state.entityTable.len = 0 :=
      countSlot_zero_of _ _ (fun h2 hm => by have := hercnt h2 hm; omega)
    refine ⟨[], ⟨?_, ?_, ?_, ?_, ?_, ?_, ?_, ?_, ?_, ?_, ?_, ?_⟩⟩ <;> dsimp only
    · -- et_min
      rw [setv_len, push_len, List.length_append]
      simp only [List.length_cons, List.length_nil]
      omega
    · -- h_min
      rw [push_len, List.length_append]
      simp only [List.length_cons, List.length_nil]
      omega
    · -- gen_cnt
      intro i hi
      rw [setv_len, push_len] at hi
      by_cases hiN : i = a.state.entityTable.len
      · subst hiN
        rw [setv_dat_self]
        dsimp only
        exact hcnt0.symm
      · rw [setv_dat_ne _ _ _ _ hiN, push_dat_ne _ _ _ hiN]
        exact gen_cnt i (by omega)
    · -- chain
      exact hff
    · -- fs_lt
      intro i hi
      exact absurd hi (List.not_mem_nil i)
    · -- fs_nd
      exact List.nodup_nil
    · -- row_ok
      intro r hr
      rw [push_len] at hr
      by_cases hrL : r = a.state.handles.len
      · subst hrL
        rw [push_dat_self]
        dsimp only
        refine ⟨?_, List.not_mem_nil _, ?_, rfl⟩
        · rw [setv_len, push_len]
          omega
        · rw [setv_dat_self]
      · rw [push_dat_ne _ _ _ hrL]
        obtain ⟨hm1, _, hm3, hm4⟩ := row_ok r (by omega)
        refine ⟨?_, List.not_mem_nil _, ?_, hm4⟩
        · rw [setv_len, push_len]
          omega
        · rw [setv_dat_ne _ _ _ _ (by omega), push_dat_ne _ _ _ (by omega)]
          exact hm3
    · -- row_inj
      intro r1 r2 hr1 hr2 hne
      rw [push_len] at hr1 hr2
      by_cases h1L : r1 = a.state.handles.len
      · subst h1L
        have h2L : r2 ≠ a.state.handles.len := fun hK => hne hK.symm
        rw [push_dat_self, push_dat_ne _ _ _ h2L]
        dsimp only
        have := (row_ok r2 (by omega)).1
        omega
      · by_cases h2L : r2 = a.state.handles.len
        · subst h2L
          rw [push_dat_self, push_dat_ne _ _ _ h1L]
          dsimp only
          have := (row_ok r1 (by omega)).1
          omega
        · rw [push_dat_ne _ _ _ h1L, push_dat_ne _ _ _ h2L]
          exact row_inj r1 r2 (by omega) (by omega) hne
    · -- occ_row
      intro i hi _
      rw [setv_len, push_len] at hi
      by_cases hiN : i = a.state.entityTable.len
      · subst hiN
        rw [setv_dat_self]
        dsimp only
        rw [push_len, push_dat_self]
        exact ⟨by omega, rfl⟩
      · rw [setv_dat_ne _ _ _ _ hiN, push_dat_ne _ _ _ hiN]
        obtain ⟨hn1, hn2⟩ := occ_row i (by omega) (List.not_mem_nil i)
        rw [push_len, push_dat_ne _ _ _ (by omega)]
        exact ⟨by omega, hn2⟩
    · -- mint_ok
      intro p hp
      rcases List.mem_append.mp hp with hp | hp
      · obtain ⟨hq1, hq2, hq3, hq4⟩ := mint_ok p hp
        refine ⟨?_, hq2, hq3, ?_⟩
        · rw [setv_len, push_len]
          omega
        · rcases hq4 with hq4 | ⟨hq4, _⟩
          · exact Or.inl hq4
          · exact Or.inr ⟨hq4, List.not_mem_nil _⟩
      · rcases List.mem_singleton.mp hp with rfl
        dsimp only
        refine ⟨?_, rfl, hcnt0.symm, Or.inr ⟨rfl, List.not_mem_nil _⟩⟩
        rw [setv_len, push_len]
        omega
    · -- mint_mono
      rw [List.pairwise_append]
      refine ⟨mint_mono, List.pairwise_singleton _ _, ?_⟩
      intro p hp q hq heq
      rcases List.mem_singleton.mp hq with rfl
      exfalso
      have := (mint_ok p hp).1
      dsimp only at heq
      omega
    · -- er_iff
      intro h2
      constructor
      · intro hm
        obtain ⟨c2, hcm, hlt2⟩ := (er_iff h2).mp hm
        exact ⟨c2, List.mem_append_left _ hcm, hlt2⟩
      · rintro ⟨c2, hcm, hlt2⟩
        rcases List.mem_append.mp hcm with hcm | hcm
        · exact (er_iff h2).mpr ⟨c2, hcm, hlt2⟩
        · exfalso
          rcases List.mem_singleton.mp hcm with ⟨rfl, rfl⟩
          dsimp only at hlt2
          omega
  · -- reused slot: pop the head of the free list
    obtain ⟨i, fs1, rfl⟩ : ∃ i fs1, fs = i :: fs1 := by
      cases fs with
      | nil => exact absurd chain hff
      | cons i rest => exact ⟨i, rest, rfl⟩
    obtain ⟨hffi, hch1⟩ := chain
    have hiN : i < a.state.entityTable.len := fs_lt i (List.mem_cons_self i fs1)
    have hind : i ∉ fs1 := (List.nodup_cons.mp fs_nd).1
    rw [insert_free a.state v hff, hffi]
    dsimp only
    have hgi : (a.state.entityTable.dat i).generationCounter = countSlot a.erased i :=
      gen_cnt i hiN
    rw [hgi]
    refine ⟨fs1, ⟨?_, ?_, ?_, ?_, ?_, ?_, ?_, ?_, ?_, ?_, ?_, ?_⟩⟩ <;> dsimp only
    · -- et_min
      rw [setv_len, List.length_append]
      simp only [List.length_cons, List.length_nil]
      omega
    · -- h_min
      rw [push_len, List.length_append]
      simp only [List.length_cons, List.length_nil]
      omega
    · -- gen_cnt
      intro j hj
      rw [setv_len] at hj
      by_cases hji : j = i
      · subst hji
        rw [setv_dat_self]
      · rw [setv_dat_ne _ _ _ _ hji]
        exact gen_cnt j hj
    · -- chain
      refine freeChain_congr _ _ _ _ hch1 ?_
      intro j hj
      have hji : j ≠ i := by
        intro hK
        apply hind
        rw [← hK]
        exact hj
      rw [setv_dat_ne _ _ _ _ hji]
    · -- fs_lt
      intro j hj
      rw [setv_len]
      exact fs_lt j (List.mem_cons_of_mem _ hj)
    · -- fs_nd
      exact (List.nodup_cons.mp fs_nd).2
    · -- row_ok
      intro r hr
      rw [push_len] at hr
      by_cases hrL : r = a.state.handles.len
      · subst hrL
        rw [push_dat_self]
        dsimp only
        refine ⟨by rw [setv_len]; omega, hind, ?_, rfl⟩
        rw [setv_dat_self]
      · rw [push_dat_ne _ _ _ hrL]
        obtain ⟨hm1, hm2, hm3, hm4⟩ := row_ok r (by omega)
        have hmi : (a.state.handles.dat r).entityIndex ≠ i :=
          fun hK => hm2 (hK ▸ List.mem_cons_self i fs1)
        refine ⟨by rw [setv_len]; omega, ?_, ?_, hm4⟩
        · exact fun hK => hm2 (List.mem_cons_of_mem _ hK)
        · rw [setv_dat_ne _ _ _ _ hmi]
          exact hm3
    · -- row_inj
      intro r1 r2 hr1 hr2 hne
      rw [push_len] at hr1 hr2
      by_cases h1L : r1 = a.state.handles.len
      · subst h1L
        have h2L : r2 ≠ a.state.handles.len := fun hK => hne hK.symm
        rw [push_dat_self, push_dat_ne _ _ _ h2L]
        dsimp only
        have hm2 := (row_ok r2 (by omega)).2.1
        exact fun hK => hm2 (hK ▸ List.mem_cons_self i fs1)
      · by_cases h2L : r2 = a.state.handles.len
        · subst h2L
          rw [push_dat_self, push_dat_ne _ _ _ h1L]
          dsimp only
          have hm2 := (row_ok r1 (by omega)).2.1
          exact fun hK => hm2 (hK ▸ List.mem_cons_self i fs1)
        · rw [push_dat_ne _ _ _ h1L, push_dat_ne _ _ _ h2L]
          exact row_inj r1 r2 (by omega) (by omega) hne
    · -- occ_row
      intro j hj hjf
      rw [setv_len] at hj
      by_cases hji : j = i
      · subst hji
        rw [setv_dat_self]
        dsimp only
        rw [push_len, push_dat_self]
        exact ⟨by omega, rfl⟩
      · have hjfs : j ∉ i :: fs1 := by
          intro hK
          rcases List.mem_cons.mp hK with hK | hK
          · exact hji hK
          · exact hjf hK
        obtain ⟨hn1, hn2⟩ := occ_row j hj hjfs
        rw [setv_dat_ne _ _ _ _ hji, push_len, push_dat_ne _ _ _ (by omega)]
        exact ⟨by omega, hn2⟩
    · -- mint_ok
      intro p hp
      rcases List.mem_append.mp hp with hp | hp
      · obtain ⟨hq1, hq2, hq3, hq4⟩ := mint_ok p hp
        refine ⟨by rw [setv_len]; omega, hq2, hq3, ?_⟩
        rcases hq4 with hq4 | ⟨hq4, hq5⟩
        · exact Or.inl hq4
        · exact Or.inr ⟨hq4, fun hK => hq5 (List.mem_cons_of_mem _ hK)⟩
      · rcases List.mem_singleton.mp hp with rfl
        dsimp only
        exact ⟨by rw [setv_len]; omega, rfl, rfl, Or.inr ⟨rfl, hind⟩⟩
    · -- mint_mono
      rw [List.pairwise_append]
      refine ⟨mint_mono, List.pairwise_singleton _ _, ?_⟩
      intro p hp q hq heq
      rcases List.mem_singleton.mp hq with rfl
      dsimp only at heq
      obtain ⟨_, _, _, hq4⟩ := mint_ok p hp
      rcases hq4 with hq4 | ⟨_, hq5⟩
      · rw [heq] at hq4
        exact hq4
      · exfalso
        apply hq5
        rw [heq]
        exact List.mem_cons_self i fs1
    · -- er_iff
      intro h2
      constructor
      · intro hm
        obtain ⟨c2, hcm, hlt2⟩ := (er_iff h2).mp hm
        exact ⟨c2, List.mem_append_left _ hcm, hlt2⟩
      · rintro ⟨c2, hcm, hlt2⟩
        rcases List.mem_append.mp hcm with hcm | hcm
        · exact (er_iff h2).mpr ⟨c2, hcm, hlt2⟩
        · exfalso
          rcases List.mem_singleton.mp hcm with ⟨rfl, rfl⟩
          dsimp only at hlt2
          omega

/-- Erasing preserves the invariant, provided the resulting per-slot erase
counts stay below the generation period. -/
theorem step_del_inv (a : RunAcc) (fs : List Nat) (k : Nat) (hinv : Inv a fs)
    (hlen : a.minted.length < idxNull)
    (hB : ∀ i, countSlot (stepOp a (Op.del k)).erased i ≤ 65534) :
    ∃ fs2, Inv (stepOp a (Op.del k)) fs2 := by
  by_cases hsucc : (eraseReg a.state ((a.minted.getD k (nullHandle, 0)).1)).2 = true
  case neg =>
    have hcf : contains a.state ((a.minted.getD k (nullHandle, 0)).1) = false := by
      rw [erase_snd] at hsucc
      simpa using hsucc
    refine ⟨fs, ?_⟩
    rw [stepOp_del, erase_fail _ _ hcf]
    dsimp only
    rw [if_neg (by simp)]
    exact hinv
  case pos =>
    obtain ⟨et_min, h_min, gen_cnt, chain, fs_lt, fs_nd, row_ok, row_inj, occ_row,
      mint_ok, mint_mono, er_iff⟩ := hinv
    set hp := a.minted.getD k (nullHandle, 0) with hhp
    have hc : contains a.state hp.1 = true := by
      rw [← erase_snd]
      exact hsucc
    have hk_lt : k < a.minted.length := by
      by_contra hk
      push_neg at hk
      rw [hhp, List.getD_eq_get?, List.get?_eq_none.mpr hk] at hc
      simp only [Option.getD_none] at hc
      have hcf := c9_contains_total a.state nullHandle (Or.inl rfl)
      rw [hcf] at hc
      cases hc
    have hmem : hp ∈ a.minted := by
      rw [hhp, List.getD_eq_get?, List.get?_eq_get hk_lt]
      exact List.get_mem _ _ _
    obtain ⟨hslt, htyp, hgen_c, hdisj⟩ := mint_ok hp hmem
    obtain ⟨hnn, hlt2, hgeq⟩ := (contains_iff _ hp.1).mp hc
    have hceq : hp.2 = countSlot a.erased hp.1.entityIndex := by
      rw [← hgen_c, ← hgeq]
      exact gen_cnt _ hlt2
    have hocc : hp.1.entityIndex ∉ fs := by
      rcases hdisj with hd | ⟨_, hd⟩
      · omega
      · exact hd
    obtain ⟨hcidx_lt, hcidx_slot⟩ := occ_row hp.1.entityIndex hlt2 hocc
    obtain ⟨hrm1, hrm2, hgenc, htypc⟩ := row_ok _ hcidx_lt
    have hHrow : a.state.handles.dat
        ((a.state.entityTable.dat hp.1.entityIndex).nextFreeOrCompIndex) = hp.1 := by
      refine handle_ext _ _ hcidx_slot ?_ ?_
      · rw [hgenc, hcidx_slot, hgeq]
      · rw [htypc, htyp]
    have hLm : a.state.handles.len < idxNull := lt_of_le_of_lt h_min hlen
    have hcnt2_self : countSlot (a.erased ++ [hp.1]) hp.1.entityIndex
        = countSlot a.erased hp.1.entityIndex + 1 := by
      rw [countSlot_append]
      simp
    have hcnt2_ne : ∀ x, x ≠ hp.1.entityIndex →
        countSlot (a.erased ++ [hp.1]) x = countSlot a.erased x := by
      intro x hx
      rw [countSlot_append, if_neg (Ne.symm hx)]
      omega
    have hBe : ∀ i2, countSlot (a.erased ++ [hp.1]) i2 ≤ 65534 := by
      intro i2
      have hq := hB i2
      rw [stepOp_del] at hq
      dsimp only at hq
      rw [← hhp, hsucc] at hq
      rw [if_pos rfl] at hq
      exact hq
    have hwrap : wrapInc ((a.state.entityTable.dat hp.1.entityIndex).generationCounter)
        = countSlot a.erased hp.1.entityIndex + 1 := by
      rw [gen_cnt _ hlt2]
      apply wrapInc_small
      have := hBe hp.1.entityIndex
      omega
    refine ⟨hp.1.entityIndex :: fs, ?_⟩
    rw [stepOp_del, ← hhp, erase_succ_eq a.state hp.1 hc]
    dsimp only
    rw [if_pos rfl]
    by_cases hswap :
        (a.state.entityTable.dat hp.1.entityIndex).nextFreeOrCompIndex + 1
          < a.state.handles.len
    · -- backfill: the last row's handle moves into the erased row
      rw [compErase_swap_corr _ _ hswap]
      dsimp only
      have hL2 : 2 ≤ a.state.handles.len := by omega
      have hjlt2 : a.state.handles.len - 1 < a.state.handles.len := by omega
      obtain ⟨hjlt, hjnf, hjgen, hjtyp⟩ := row_ok _ hjlt2
      have hcne : (a.state.entityTable.dat hp.1.entityIndex).nextFreeOrCompIndex
          ≠ a.state.handles.len - 1 := by omega
      have hjne : (a.state.handles.dat (a.state.handles.len - 1)).entityIndex
          ≠ hp.1.entityIndex := by
        rw [← hcidx_slot]
        exact row_inj _ _ hjlt2 hcidx_lt (Ne.symm hcne)
      have hci_nn :
          (a.state.entityTable.dat hp.1.entityIndex).nextFreeOrCompIndex ≠ idxNull := by
        omega
      have het1_self :
          (eraseCorr a.state.entityTable (a.state.handles.dat (a.state.handles.len - 1))
            ((a.state.entityTable.dat hp.1.entityIndex).nextFreeOrCompIndex)).dat
            ((a.state.handles.dat (a.state.handles.len - 1)).entityIndex)
          = ⟨(a.state.entityTable.dat hp.1.entityIndex).nextFreeOrCompIndex,
             (a.state.entityTable.dat
               ((a.state.handles.dat (a.state.handles.len - 1)).entityIndex)).generationCounter⟩ :=
        eraseCorr_dat_self _ _ _ hci_nn
      have het1_ne : ∀ x, x ≠ (a.state.handles.dat (a.state.handles.len - 1)).entityIndex →
          (eraseCorr a.state.entityTable (a.state.handles.dat (a.state.handles.len - 1))
            ((a.state.entityTable.dat hp.1.entityIndex).nextFreeOrCompIndex)).dat x
          = a.state.entityTable.dat x :=
        fun x hx => eraseCorr_dat_ne _ _ _ _ hx
      rw [eraseCorr_gen, hwrap]
      refine ⟨?_, ?_, ?_, ?_, ?_, ?_, ?_, ?_, ?_, ?_, ?_, ?_⟩ <;> dsimp only
      · -- et_min
        rw [setv_len, eraseCorr_len]
        exact et_min
      · -- h_min
        rw [compErase_swap_len _ _ hswap]
        omega
      · -- gen_cnt
        intro j hj
        rw [setv_len, eraseCorr_len] at hj
        by_cases hji : j = hp.1.entityIndex
        · subst hji
          rw [setv_dat_self, hcnt2_self]
        · rw [setv_dat_ne _ _ _ _ hji, eraseCorr_gen, hcnt2_ne j hji]
          exact gen_cnt j hj
      · -- chain
        refine ⟨rfl, ?_⟩
        rw [setv_dat_self]
        dsimp only
        refine freeChain_congr _ _ _ _ chain ?_
        intro j hj
        have hj1 : j ≠ hp.1.entityIndex := fun hK => hocc (hK ▸ hj)
        have hj2 : j ≠ (a.state.handles.dat (a.state.handles.len - 1)).entityIndex :=
          fun hK => hjnf (hK ▸ hj)
        rw [setv_dat_ne _ _ _ _ hj1, het1_ne j hj2]
      · -- fs_lt
        intro j hj
        rw [setv_len, eraseCorr_len]
        rcases List.mem_cons.mp hj with hj | hj
        · omega
        · exact fs_lt j hj
      · -- fs_nd
        exact List.nodup_cons.mpr ⟨hocc, fs_nd⟩
      · -- row_ok
        intro r hr
        rw [compErase_swap_len _ _ hswap] at hr
        rw [compErase_swap_dat _ _ hswap, if_neg (by omega)]
        by_cases hrc : r = (a.state.entityTable.dat hp.1.entityIndex).nextFreeOrCompIndex
        · rw [if_pos hrc]
          refine ⟨by rw [setv_len, eraseCorr_len]; omega, ?_, ?_, hjtyp⟩
          · intro hK
            rcases List.mem_cons.mp hK with hK | hK
            · exact hjne hK
            · exact hjnf hK
          · rw [setv_dat_ne _ _ _ _ hjne, het1_self]
            dsimp only
            exact hjgen
        · rw [if_neg hrc]
          obtain ⟨hm1, hm2, hm3, hm4⟩ := row_ok r (by omega)
          have hmh : (a.state.handles.dat r).entityIndex ≠ hp.1.entityIndex := by
            rw [← hcidx_slot]
            exact row_inj _ _ (by omega) hcidx_lt hrc
          have hmj : (a.state.handles.dat r).entityIndex
              ≠ (a.state.handles.dat (a.state.handles.len - 1)).entityIndex :=
            row_inj _ _ (by omega) hjlt2 (by omega)
          refine ⟨by rw [setv_len, eraseCorr_len]; omega, ?_, ?_, hm4⟩
          · intro hK
            rcases List.mem_cons.mp hK with hK | hK
            · exact hmh hK
            · exact hm2 hK
          · rw [setv_dat_ne _ _ _ _ hmh, het1_ne _ hmj]
            exact hm3
      · -- row_inj
        intro r1 r2 hr1 hr2 hne
        rw [compErase_swap_len _ _ hswap] at hr1 hr2
        rw [compErase_swap_dat _ _ hswap, compErase_swap_dat _ _ hswap,
          if_neg (show ¬ r1 = a.state.handles.len - 1 by omega),
          if_neg (show ¬ r2 = a.state.handles.len - 1 by omega)]
        by_cases h1c : r1 = (a.state.entityTable.dat hp.1.entityIndex).nextFreeOrCompIndex
        · rw [if_pos h1c, if_neg (show ¬ r2 =
            (a.state.entityTable.dat hp.1.entityIndex).nextFreeOrCompIndex by omega)]
          exact row_inj _ _ hjlt2 (by omega) (by omega)
        · rw [if_neg h1c]
          by_cases h2c : r2 = (a.state.entityTable.dat hp.1.entityIndex).nextFreeOrCompIndex
          · rw [if_pos h2c]
            exact row_inj _ _ (by omega) hjlt2 (by omega)
          · rw [if_neg h2c]
            exact row_inj _ _ (by omega) (by omega) hne
      · -- occ_row
        intro m hm hmf
        rw [setv_len, eraseCorr_len] at hm
        have hm1 : m ≠ hp.1.entityIndex := fun hK => hmf (hK ▸ List.mem_cons_self _ _)
        have hm2 : m ∉ fs := fun hK => hmf (List.mem_cons_of_mem _ hK)
        obtain ⟨hn1, hn2⟩ := occ_row m hm hm2
        rw [setv_dat_ne _ _ _ _ hm1]
        by_cases hmj : m = (a.state.handles.dat (a.state.handles.len - 1)).entityIndex
        · subst hmj
          rw [het1_self]
          dsimp only
          rw [compErase_swap_len _ _ hswap, compErase_swap_dat _ _ hswap,
            if_neg (by omega), if_pos rfl]
          exact ⟨by omega, rfl⟩
        · rw [het1_ne _ hmj]
          have hnc : (a.state.entityTable.dat m).nextFreeOrCompIndex
              ≠ (a.state.entityTable.dat hp.1.entityIndex).nextFreeOrCompIndex := by
            intro hK
            apply hm1
            rw [← hn2, hK, hcidx_slot]
          have hnl : (a.state.entityTable.dat m).nextFreeOrCompIndex
              ≠ a.state.handles.len - 1 := by
            intro hK
            apply hmj
            rw [← hn2, hK]
          rw [compErase_swap_len _ _ hswap, compErase_swap_dat _ _ hswap,
            if_neg hnl, if_neg hnc]
          exact ⟨by omega, hn2⟩
      · -- mint_ok
        intro p hpmem
        obtain ⟨hq1, hq2, hq3, hq4⟩ := mint_ok p hpmem
        refine ⟨by rw [setv_len, eraseCorr_len]; omega, hq2, hq3, ?_⟩
        by_cases hps : p.1.entityIndex = hp.1.entityIndex
        · left
          rw [hps, hcnt2_self]
          rw [hps] at hq4
          rcases hq4 with hq4 | ⟨hq4, _⟩
          · omega
          · omega
        · rw [hcnt2_ne _ hps]
          rcases hq4 with hq4 | ⟨hq4, hq5⟩
          · exact Or.inl hq4
          · refine Or.inr ⟨hq4, ?_⟩
            intro hK
            rcases List.mem_cons.mp hK with hK | hK
            · exact hps hK
            · exact hq5 hK
      · -- mint_mono
        exact mint_mono
      · -- er_iff
        intro h2
        constructor
        · intro hm
          rcases List.mem_append.mp hm with hm | hm
          · obtain ⟨c2, hcm, hlt3⟩ := (er_iff h2).mp hm
            refine ⟨c2, hcm, ?_⟩
            by_cases hps : h2.entityIndex = hp.1.entityIndex
            · rw [hps, hcnt2_self]
              rw [hps] at hlt3
              omega
            · rw [hcnt2_ne _ hps]
              exact hlt3
          · rcases List.mem_singleton.mp hm with rfl
            refine ⟨hp.2, ?_, ?_⟩
            · exact hmem
            · rw [hcnt2_self]
              omega
        · rintro ⟨c2, hcm, hlt3⟩
          by_cases hps : h2.entityIndex = hp.1.entityIndex
          · rw [hps, hcnt2_self] at hlt3
            rcases Nat.lt_or_ge c2 (countSlot a.erased hp.1.entityIndex) with hcl | hcl
            · apply List.mem_append_left
              apply (er_iff h2).mpr
              exact ⟨c2, hcm, by rw [hps]; exact hcl⟩
            · have hc2e : c2 = countSlot a.erased hp.1.entityIndex := by omega
              obtain ⟨hw1, hw2, hw3, _⟩ := mint_ok _ hcm
              have hh2 : h2 = hp.1 := by
                refine handle_ext _ _ (by rw [hps]) ?_ (by rw [hw2, htyp])
                rw [hw3, hc2e, hgen_c, hceq]
              rw [hh2]
              exact List.mem_append_right _ (List.mem_singleton.mpr rfl)
          · rw [hcnt2_ne _ hps] at hlt3
            exact List.mem_append_left _ ((er_iff h2).mpr ⟨c2, hcm, hlt3⟩)
    · -- the erased row is the last row: no backfill
      rw [compErase_last_corr _ _ hswap]
      dsimp only
      rw [eraseCorr_null, hwrap]
      have hclast : (a.state.entityTable.dat hp.1.entityIndex).nextFreeOrCompIndex
          = a.state.handles.len - 1 := by omega
      refine ⟨?_, ?_, ?_, ?_, ?_, ?_, ?_, ?_, ?_, ?_, ?_, ?_⟩ <;> dsimp only
      · -- et_min
        rw [setv_len]
        exact et_min
      · -- h_min
        rw [compErase_last_len _ _ hswap]
        omega
      · -- gen_cnt
        intro j hj
        rw [setv_len] at hj
        by_cases hji : j = hp.1.entityIndex
        · subst hji
          rw [setv_dat_self, hcnt2_self]
        · rw [setv_dat_ne _ _ _ _ hji, hcnt2_ne j hji]
          exact gen_cnt j hj
      · -- chain
        refine ⟨rfl, ?_⟩
        rw [setv_dat_self]
        dsimp only
        refine freeChain_congr _ _ _ _ chain ?_
        intro j hj
        have hj1 : j ≠ hp.1.entityIndex := fun hK => hocc (hK ▸ hj)
        rw [setv_dat_ne _ _ _ _ hj1]
      · -- fs_lt
        intro j hj
        rw [setv_len]
        rcases List.mem_cons.mp hj with hj | hj
        · omega
        · exact fs_lt j hj
      · -- fs_nd
        exact List.nodup_cons.mpr ⟨hocc, fs_nd⟩
      · -- row_ok
        intro r hr
        rw [compErase_last_len _ _ hswap] at hr
        rw [compErase_last_dat _ _ hswap]
        obtain ⟨hm1, hm2, hm3, hm4⟩ := row_ok r (by omega)
        have hmh : (a.state.handles.dat r).entityIndex ≠ hp.1.entityIndex := by
          rw [← hcidx_slot]
          exact row_inj _ _ (by omega) hcidx_lt (by omega)
        refine ⟨by rw [setv_len]; omega, ?_, ?_, hm4⟩
        · intro hK
          rcases List.mem_cons.mp hK with hK | hK
          · exact hmh hK
          · exact hm2 hK
        · rw [setv_dat_ne _ _ _ _ hmh]
          exact hm3
      · -- row_inj
        intro r1 r2 hr1 hr2 hne
        rw [compErase_last_len _ _ hswap] at hr1 hr2
        rw [compErase_last_dat _ _ hswap, compErase_last_dat _ _ hswap]
        exact row_inj _ _ (by omega) (by omega) hne
      · -- occ_row
        intro m hm hmf
        rw [setv_len] at hm
        have hm1 : m ≠ hp.1.entityIndex := fun hK => hmf (hK ▸ List.mem_cons_self _ _)
        have hm2 : m ∉ fs := fun hK => hmf (List.mem_cons_of_mem _ hK)
        obtain ⟨hn1, hn2⟩ := occ_row m hm hm2
        have hnc : (a.state.entityTable.dat m).nextFreeOrCompIndex
            ≠ (a.state.entityTable.dat hp.1.entityIndex).nextFreeOrCompIndex := by
          intro hK
          apply hm1
          rw [← hn2, hK, hcidx_slot]
        rw [setv_dat_ne _ _ _ _ hm1, compErase_last_len _ _ hswap,
          compErase_last_dat _ _ hswap]
        refine ⟨by omega, hn2⟩
      · -- mint_ok
        intro p hpmem
        obtain ⟨hq1, hq2, hq3, hq4⟩ := mint_ok p hpmem
        refine ⟨by rw [setv_len]; omega, hq2, hq3, ?_⟩
        by_cases hps : p.1.entityIndex = hp.1.entityIndex
        · left
          rw [hps, hcnt2_self]
          rw [hps] at hq4
          rcases hq4 with hq4 | ⟨hq4, _⟩
          · omega
          · omega
        · rw [hcnt2_ne _ hps]
          rcases hq4 with hq4 | ⟨hq4, hq5⟩
          · exact Or.inl hq4
          · refine Or.inr ⟨hq4, ?_⟩
            intro hK
            rcases List.mem_cons.mp hK with hK | hK
            · exact hps hK
            · exact hq5 hK
      · -- mint_mono
        exact mint_mono
      · -- er_iff
        intro h2
        constructor
        · intro hm
          rcases List.mem_append.mp hm with hm | hm
          · obtain ⟨c2, hcm, hlt3⟩ := (er_iff h2).mp hm
            refine ⟨c2, hcm, ?_⟩
            by_cases hps : h2.entityIndex = hp.1.entityIndex
            · rw [hps, hcnt2_self]
              rw [hps] at hlt3
              omega
            · rw [hcnt2_ne _ hps]
              exact hlt3
          · rcases List.mem_singleton.mp hm with rfl
            refine ⟨hp.2, ?_, ?_⟩
            · exact hmem
            · rw [hcnt2_self]
              omega
        · rintro ⟨c2, hcm, hlt3⟩
          by_cases hps : h2.entityIndex = hp.1.entityIndex
          · rw [hps, hcnt2_self] at hlt3
            rcases Nat.lt_or_ge c2 (countSlot a.erased hp.1.entityIndex) with hcl | hcl
            · apply List.mem_append_left
              apply (er_iff h2).mpr
              exact ⟨c2, hcm, by rw [hps]; exact hcl⟩
            · have hc2e : c2 = countSlot a.erased hp.1.entityIndex := by omega
              obtain ⟨hw1, hw2, hw3, _⟩ := mint_ok _ hcm
              have hh2 : h2 = hp.1 := by
                refine handle_ext _ _ (by rw [hps]) ?_ (by rw [hw2, htyp])
                rw [hw3, hc2e, hgen_c, hceq]
              rw [hh2]
              exact List.mem_append_right _ (List.mem_singleton.mpr rfl)
          · rw [hcnt2_ne _ hps] at hlt3
            exact List.mem_append_left _ ((er_iff h2).mpr ⟨c2, hcm, hlt3⟩)

/-- Each step appends to the mint and erase logs. -/
theorem step_extend (a : RunAcc) (op : Op) :
    ∃ m0 e0, (stepOp a op).minted = a.minted ++ m0 ∧ (stepOp a op).erased = a.erased ++ e0 := by
  cases op with
  | ins v =>
    exact ⟨[((insert a.state v).2, countSlot a.erased (insert a.state v).2.entityIndex)], [],
      rfl, by simp [stepOp_ins]⟩
  | del k =>
    rw [stepOp_del]
    by_cases hsucc :
        (eraseReg a.state ((a.minted.getD k (nullHandle, 0)).1)).2 = true
    · exact ⟨[], [(a.minted.getD k (nullHandle, 0)).1], by simp, by rw [hsucc, if_pos rfl]⟩
    · refine ⟨[], [], by simp, ?_⟩
      simp only [Bool.not_eq_true] at hsucc
      rw [hsucc]
      simp

/-- A run extends the logs of any of its prefixes. -/
theorem run_extend (l : List Op) (a : RunAcc) :
    ∃ m e, (List.foldl stepOp a l).minted = a.minted ++ m ∧
      (List.foldl stepOp a l).erased = a.erased ++ e := by
  induction l generalizing a with
  | nil => exact ⟨[], [], by simp, by simp⟩
  | cons op rest ih =>
    obtain ⟨m1, e1, hm1, he1⟩ := ih (stepOp a op)
    obtain ⟨m0, e0, hm0, he0⟩ := step_extend a op
    rw [List.foldl_cons]
    exact ⟨m0 ++ m1, e0 ++ e1, by rw [hm1, hm0, List.append_assoc],
      by rw [he1, he0, List.append_assoc]⟩

/-- One step preserves the invariant given the bounds. -/
theorem step_inv (a : RunAcc) (fs : List Nat) (op : Op) (hinv : Inv a fs)
    (hlen : a.minted.length < idxNull)
    (hB : ∀ i, countSlot (stepOp a op).erased i ≤ 65534) :
    ∃ fs2, Inv (stepOp a op) fs2 := by
  cases op with
  | ins v => exact step_ins_inv a fs v hinv hlen
  | del k => exact step_del_inv a fs k hinv hlen hB

/-- Folding a trace preserves the invariant, given the bounds at the end of
the trace (the logs only grow, so the bounds hold throughout). -/
theorem inv_foldl (l : List Op) :
    ∀ (a : RunAcc) (fs : List Nat), Inv a fs →
      (List.foldl stepOp a l).minted.length < idxNull →
      (∀ i, countSlot (List.foldl stepOp a l).erased i ≤ 65534) →
      ∃ fs2, Inv (List.foldl stepOp a l) fs2 := by
  induction l with
  | nil => exact fun a fs h _ _ => ⟨fs, h⟩
  | cons op rest ih =>
    intro a fs hinv hlen hB
    rw [List.foldl_cons] at hlen hB ⊢
    obtain ⟨m1, e1, hm1, he1⟩ := run_extend rest (stepOp a op)
    obtain ⟨m0, e0, hm0, he0⟩ := step_extend a op
    have hlen_a : a.minted.length < idxNull := by
      rw [hm1, hm0, List.length_append, List.length_append] at hlen
      omega
    have hB_step : ∀ i, countSlot (stepOp a op).erased i ≤ 65534 := by
      intro i
      have hq := hB i
      rw [he1, countSlot_append2] at hq
      omega
    obtain ⟨fs1, hinv1⟩ := step_inv a fs op hinv hlen_a hB_step
    exact ih (stepOp a op) fs1 hinv1 hlen hB

/-- The initial accumulator satisfies the invariant with an empty free list. -/
theorem inv_init : Inv ⟨initState, [], []⟩ [] := by
  refine ⟨?_, ?_, ?_, ?_, ?_, ?_, ?_, ?_, ?_, ?_, ?_, ?_⟩ <;> dsimp only
  · exact Nat.le_refl 0
  · exact Nat.le_refl 0
  · intro i hi
    simp [initState, FVec.emp] at hi
  · rfl
  · intro i hi
    exact absurd hi (List.not_mem_nil i)
  · exact List.nodup_nil
  · intro r hr
    simp [initState, FVec.emp] at hr
  · intro r1 r2 hr1 hr2 hne
    simp [initState, FVec.emp] at hr1
  · intro i hi
    simp [initState, FVec.emp] at hi
  · intro p hp
    simp at hp
  · exact List.Pairwise.nil
  · intro h2
    simp

theorem inv_run (ops : List Op) (hlen : (run ops).minted.length < idxNull)
    (hB : ∀ i, countSlot (run ops).erased i ≤ 65534) : ∃ fs, Inv (run ops) fs :=
  inv_foldl ops ⟨initState, [], []⟩ [] inv_init hlen hB

/-- The mint log is no longer than the trace. -/
theorem minted_le_ops (l : List Op) :
    ∀ a : RunAcc, (List.foldl stepOp a l).minted.length ≤ a.minted.length + l.length := by
  induction l with
  | nil => intro a; simp
  | cons op rest ih =>
    intro a
    rw [List.foldl_cons]
    have h1 := ih (stepOp a op)
    have h2 : (stepOp a op).minted.length ≤ a.minted.length + 1 := by
      obtain ⟨m0, e0, hm0, _⟩ := step_extend a op
      rw [hm0, List.length_append]
      have : m0.length ≤ 1 := by
        cases op with
        | ins v =>
          rw [stepOp_ins] at hm0
          dsimp only at hm0
          have := congrArg List.length hm0
          rw [List.length_append, List.length_append] at this
          simp at this
          omega
        | del k =>
          rw [stepOp_del] at hm0
          dsimp only at hm0
          have := congrArg List.length hm0
          rw [List.length_append] at this
          omega
      omega
    simp only [List.length_cons]
    omega

/-- Claim C1, amended: in a trace of inserts and erases in which fewer than
65535 successful erases hit any one slot (no generation wrap) and whose
length stays below the 32-bit NULL index, a handle returned by some
insert satisfies `contains` exactly until it is successfully erased. -/
theorem c1_contains_iff_no_wrap (ops : List Op) (hops : ops.length < idxNull)
    (hB : ∀ i, countSlot (run ops).erased i ≤ 65534)
    (h : VecsHandle) (hm : h ∈ (run ops).minted.map Prod.fst) :
    (contains (run ops).state h = true ↔ h ∉ (run ops).erased) := by
  have hlen : (run ops).minted.length < idxNull := by
    have := minted_le_ops ops ⟨initState, [], []⟩
    simp only [List.length_nil] at this
    have h0 : (run ops).minted.length ≤ 0 + ops.length := this
    omega
  obtain ⟨fs, hinv⟩ := inv_run ops hlen hB
  obtain ⟨p, hpm, hph⟩ := List.mem_map.mp hm
  obtain ⟨hslt, htyp, hgen, hdisj⟩ := hinv.mint_ok p hpm
  subst hph
  have hnn : p.1.entityIndex ≠ idxNull := by
    have : p.1.entityIndex < idxNull :=
      lt_of_lt_of_le hslt (le_trans hinv.et_min (le_of_lt hlen))
    omega
  have hgc := hinv.gen_cnt p.1.entityIndex hslt
  rw [contains_iff]
  constructor
  · intro hcont hmem_er
    obtain ⟨c2, hm2, hlt2⟩ := (hinv.er_iff p.1).mp hmem_er
    obtain ⟨_, _, hgen2, _⟩ := hinv.mint_ok _ hm2
    dsimp only at hgen2
    have hK := hcont.2.2
    omega
  · intro hnot
    refine ⟨hnn, hslt, ?_⟩
    rcases hdisj with hd | ⟨hd, _⟩
    · exfalso
      apply hnot
      apply (hinv.er_iff p.1).mpr
      exact ⟨p.2, hpm, hd⟩
    · omega

/-- Witness for C1 (amended) at a concrete input. -/
theorem c1_contains_iff_no_wrap_witness :
    contains (run [Op.ins 5]).state ⟨0, 0, typeE⟩ = true ↔
      (⟨0, 0, typeE⟩ : VecsHandle) ∉ (run [Op.ins 5]).erased :=
  c1_contains_iff_no_wrap [Op.ins 5] (by decide)
    (fun i => by simp [run, stepOp, countSlot]) ⟨0, 0, typeE⟩ (by decide)

/-- Claim C4, amended: under the same no-wrap bound, no two live rows of
the component table hold equal handles, and any two distinct insert
calls of the trace return unequal handles (in particular, a reused slot
yields a handle unequal to every handle previously minted at it). -/
theorem c4_handle_uniqueness_no_wrap (ops : List Op) (hops : ops.length < idxNull)
    (hB : ∀ i, countSlot (run ops).erased i ≤ 65534) :
    (∀ r1 r2, r1 < (run ops).state.handles.len → r2 < (run ops).state.handles.len →
      r1 ≠ r2 → (run ops).state.handles.dat r1 ≠ (run ops).state.handles.dat r2) ∧
    (∀ p1 p2, p1 < (run ops).minted.length → p2 < (run ops).minted.length → p1 ≠ p2 →
      ((run ops).minted.getD p1 (nullHandle, 0)).1
        ≠ ((run ops).minted.getD p2 (nullHandle, 0)).1) := by
  have hlen : (run ops).minted.length < idxNull := by
    have := minted_le_ops ops ⟨initState, [], []⟩
    simp only [List.length_nil] at this
    have h0 : (run ops).minted.length ≤ 0 + ops.length := this
    omega
  obtain ⟨fs, hinv⟩ := inv_run ops hlen hB
  constructor
  · intro r1 r2 hr1 hr2 hne heq
    exact hinv.row_inj r1 r2 hr1 hr2 hne (congrArg VecsHandle.entityIndex heq)
  · have key : ∀ p1 p2 (hp1 : p1 < (run ops).minted.length)
        (hp2 : p2 < (run ops).minted.length), p1 < p2 →
        ((run ops).minted.getD p1 (nullHandle, 0)).1
          ≠ ((run ops).minted.getD p2 (nullHandle, 0)).1 := by
      intro p1 p2 hp1 hp2 hlt heq
      rw [List.getD_eq_get?, List.get?_eq_get hp1] at heq
      rw [List.getD_eq_get?, List.get?_eq_get hp2] at heq
      simp only [Option.getD_some] at heq
      have hR := List.pairwise_iff_get.mp hinv.mint_mono ⟨p1, hp1⟩ ⟨p2, hp2⟩ hlt
      have hm1 := hinv.mint_ok _ (List.get_mem (run ops).minted p1 hp1)
      have hm2 := hinv.mint_ok _ (List.get_mem (run ops).minted p2 hp2)
      have hslot : ((run ops).minted.get ⟨p1, hp1⟩).1.entityIndex
          = ((run ops).minted.get ⟨p2, hp2⟩).1.entityIndex :=
        congrArg VecsHandle.entityIndex heq
      have hgeneq : ((run ops).minted.get ⟨p1, hp1⟩).1.generationCounter
          = ((run ops).minted.get ⟨p2, hp2⟩).1.generationCounter :=
        congrArg VecsHandle.generationCounter heq
      have hc12 := hR hslot
      have hg1 := hm1.2.2.1
      have hg2 := hm2.2.2.1
      omega
    intro p1 p2 hp1 hp2 hne
    rcases Nat.lt_or_ge p1 p2 with hlt | hge
    · exact key p1 p2 hp1 hp2 hlt
    · have hlt2 : p2 < p1 := by omega
      exact fun hK => key p2 p1 hp2 hp1 hlt2 hK.symm

/-- Witness for C4 (amended) at a concrete input. -/
theorem c4_handle_uniqueness_no_wrap_witness :
    (run [Op.ins 1, Op.ins 2]).state.handles.dat 0
      ≠ (run [Op.ins 1, Op.ins 2]).state.handles.dat 1 :=
  (c4_handle_uniqueness_no_wrap [Op.ins 1, Op.ins 2] (by decide)
    (fun i => by simp [run, stepOp, countSlot])).1 0 1 (by decide) (by decide) (by decide)

/-! The generation-wrap trace: closed form of the state after `k`
insert/erase pairs on slot 0 (claims C1 and C4, counterexamples). -/

theorem getD_concat {α : Type} (l : List α) (x d : α) (n : Nat) (hn : l.length = n) :
    (l ++ [x]).getD n d = x := by
  subst hn
  rw [List.getD_eq_getElem?_getD, List.getElem?_concat_length]
  rfl

theorem pairOps_succ (k : Nat) :
    pairOps (k + 1) = pairOps k ++ [Op.ins 0, Op.del (k + 1)] := by
  unfold pairOps
  rw [List.range_succ, List.flatMap_append]
  simp

theorem run_append (l1 l2 : List Op) : run (l1 ++ l2) = List.foldl stepOp (run l1) l2 := by
  unfold run
  rw [List.foldl_append]

theorem run_pairs : ∀ k : Nat, k ≤ 65534 →
    (run ([Op.ins 0, Op.del 0] ++ pairOps k)).state.entityTable.len = 1 ∧
    (run ([Op.ins 0, Op.del 0] ++ pairOps k)).state.entityTable.dat 0
      = ⟨idxNull, (k + 1) % 65535⟩ ∧
    (run ([Op.ins 0, Op.del 0] ++ pairOps k)).state.firstFree = 0 ∧
    (run ([Op.ins 0, Op.del 0] ++ pairOps k)).state.handles.len = 0 ∧
    (run ([Op.ins 0, Op.del 0] ++ pairOps k)).minted
      = (h0, 0) :: (List.range k).map mintPair ∧
    (run ([Op.ins 0, Op.del 0] ++ pairOps k)).erased
      = h0 :: (List.range k).map delHandle ∧
    countSlot ((run ([Op.ins 0, Op.del 0] ++ pairOps k)).erased) 0 = k + 1 := by
  intro k
  induction k with
  | zero =>
    intro _
    have h00 : pairOps 0 = [] := rfl
    rw [h00, List.append_nil]
    exact ⟨by decide, by decide, by decide, by decide, by decide, by decide, by decide⟩
  | succ k ih =>
    intro hk
    obtain ⟨e1, e2, e3, e4, e5, e6, e7⟩ := ih (by omega)
    have hmod : (k + 1) % 65535 = k + 1 := Nat.mod_eq_of_lt (by omega)
    rw [hmod] at e2
    rw [pairOps_succ, ← List.append_assoc, run_append]
    simp only [List.foldl_cons, List.foldl_nil]
    -- the insert of the pair
    have hff : (run ([Op.ins 0, Op.del 0] ++ pairOps k)).state.firstFree ≠ idxNull := by
      rw [e3]
      decide
    have hB1 := insert_free (run ([Op.ins 0, Op.del 0] ++ pairOps k)).state 0 hff
    rw [e3, e2, e4] at hB1
    dsimp only at hB1
    have hstep1 : stepOp (run ([Op.ins 0, Op.del 0] ++ pairOps k)) (Op.ins 0) =
        ⟨⟨(run ([Op.ins 0, Op.del 0] ++ pairOps k)).state.entityTable.setv 0 ⟨0, k + 1⟩,
          idxNull,
          (run ([Op.ins 0, Op.del 0] ++ pairOps k)).state.handles.push ⟨0, k + 1, typeE⟩,
          (run ([Op.ins 0, Op.del 0] ++ pairOps k)).state.components.push 0⟩,
         (h0, 0) :: (List.range (k + 1)).map mintPair,
         h0 :: (List.range k).map delHandle⟩ := by
      rw [stepOp_ins, hB1]
      dsimp only
      rw [e7, e5, e6, List.range_succ, List.map_append]
      rw [← List.cons_append]
      rfl
    rw [hstep1]
    -- the erase of the pair
    have hgd : ((h0, 0) :: (List.range (k + 1)).map mintPair).getD (k + 1) (nullHandle, 0)
        = (⟨0, k + 1, typeE⟩, k + 1) := by
      have h1 : ((h0, 0) :: (List.range (k + 1)).map mintPair)
          = ((h0, 0) :: (List.range k).map mintPair) ++ [(⟨0, k + 1, typeE⟩, k + 1)] := by
        rw [List.range_succ, List.map_append]
        rfl
      have hlen2 : ((h0, 0) :: (List.range k).map mintPair).length = k + 1 := by
        simp
      rw [h1, getD_concat _ _ _ _ hlen2]
    have hc2 : contains
        ⟨(run ([Op.ins 0, Op.del 0] ++ pairOps k)).state.entityTable.setv 0 ⟨0, k + 1⟩,
          idxNull,
          (run ([Op.ins 0, Op.del 0] ++ pairOps k)).state.handles.push ⟨0, k + 1, typeE⟩,
          (run ([Op.ins 0, Op.del 0] ++ pairOps k)).state.components.push 0⟩
        ⟨0, k + 1, typeE⟩ = true := by
      rw [contains_iff]
      refine ⟨by dsimp only; decide, ?_, ?_⟩
      · dsimp only
        rw [setv_len, e1]
        omega
      · dsimp only
        rw [setv_dat_self]
    have her := erase_succ_eq _ _ hc2
    dsimp only at her
    rw [setv_dat_self] at her
    dsimp only at her
    have hnoswap : ¬ (0 + 1 <
        ((run ([Op.ins 0, Op.del 0] ++ pairOps k)).state.handles.push ⟨0, k + 1, typeE⟩).len) := by
      rw [push_len, e4]
      omega
    rw [compErase_last_corr _ _ hnoswap] at her
    dsimp only at her
    rw [eraseCorr_null, setv_dat_self] at her
    dsimp only at her
    have hwrapk : wrapInc (k + 1) = (k + 1 + 1) % 65535 := by
      unfold wrapInc cntNull
      split <;> omega
    rw [hwrapk] at her
    rw [stepOp_del]
    dsimp only
    rw [hgd]
    dsimp only
    rw [her]
    dsimp only
    rw [if_pos rfl]
    refine ⟨?_, ?_, rfl, ?_, rfl, ?_, ?_⟩
    · rw [setv_len, setv_len, e1]
    · rw [setv_dat_self]
    · rw [compErase_last_len _ _ hnoswap, push_len, e4]
    · rw [List.range_succ, List.map_append, ← List.cons_append]
      rfl
    · rw [countSlot_append, ← e6, e7]
      simp

/-- Counterexample for claim C1 as stated: after the wrap trace (one
insert/erase of the first handle `h0`, then 65534 further insert/erase
pairs on slot 0) the slot's generation counter has cycled back to 0, so
`contains` accepts `h0` again even though `h0` was returned by the very
first insert and was then successfully erased and never returned again. -/
theorem c1_counterexample :
    h0 ∈ (run wrapOps).minted.map Prod.fst ∧
    h0 ∈ (run wrapOps).erased ∧
    contains (run wrapOps).state h0 = true := by
  obtain ⟨e1, e2, e3, e4, e5, e6, e7⟩ := run_pairs 65534 (by omega)
  refine ⟨?_, ?_, ?_⟩
  · rw [show wrapOps = [Op.ins 0, Op.del 0] ++ pairOps 65534 from rfl, e5]
    exact List.mem_map.mpr ⟨(h0, 0), List.mem_cons_self _ _, rfl⟩
  · rw [show wrapOps = [Op.ins 0, Op.del 0] ++ pairOps 65534 from rfl, e6]
    exact List.mem_cons_self _ _
  · rw [show wrapOps = [Op.ins 0, Op.del 0] ++ pairOps 65534 from rfl, contains_iff]
    refine ⟨by decide, ?_, ?_⟩
    · rw [e1]
      decide
    · have hg := congrArg EntryT.generationCounter e2
      have hz : (⟨idxNull, (65534 + 1) % 65535⟩ : EntryT).generationCounter = 0 := rfl
      rw [hz] at hg
      have hh1 : h0.entityIndex = 0 := rfl
      have hh2 : h0.generationCounter = 0 := rfl
      rw [hh1, hh2, hg]

/-- Counterexample for claim C4 as stated: one further insert after the
wrap trace reuses freed slot 0 at generation 0 and returns a handle
equal to `h0`, the handle minted by the very first insert of the trace. -/
theorem c4_counterexample :
    (run wrapOps2).minted.length = 65536 ∧
    ((run wrapOps2).minted.getD 0 (nullHandle, 0)).1 = h0 ∧
    ((run wrapOps2).minted.getD 65535 (nullHandle, 0)).1 = h0 := by
  obtain ⟨e1, e2, e3, e4, e5, e6, e7⟩ := run_pairs 65534 (by omega)
  have hm0 : (65534 + 1) % 65535 = 0 := by norm_num
  rw [hm0] at e2
  have hA : run wrapOps2 = stepOp (run ([Op.ins 0, Op.del 0] ++ pairOps 65534)) (Op.ins 0) := by
    rw [show wrapOps2 = ([Op.ins 0, Op.del 0] ++ pairOps 65534) ++ [Op.ins 0] from rfl,
      run_append]
    rfl
  have hff : (run ([Op.ins 0, Op.del 0] ++ pairOps 65534)).state.firstFree ≠ idxNull := by
    rw [e3]
    decide
  have hB1 := insert_free (run ([Op.ins 0, Op.del 0] ++ pairOps 65534)).state 0 hff
  rw [e3, e2, e4] at hB1
  dsimp only at hB1
  have hmint : (run wrapOps2).minted
      = ((h0, 0) :: (List.range 65534).map mintPair)
        ++ [(⟨0, 0, typeE⟩,
             countSlot (run ([Op.ins 0, Op.del 0] ++ pairOps 65534)).erased 0)] := by
    rw [hA, stepOp_ins, hB1]
    dsimp only
    rw [e5]
  refine ⟨?_, ?_, ?_⟩
  · rw [hmint, List.length_append, List.length_cons, List.length_map, List.length_range]
    rfl
  · rw [hmint, List.cons_append]
    rfl
  · have hplen : ((h0, 0) :: (List.range 65534).map mintPair).length = 65535 := by
      rw [List.length_cons, List.length_map, List.length_range]
    rw [hmint, getD_concat _ _ _ _ hplen]
    rfl

end Vecs
